import Mathlib

/-!
# Pattern matching of the tokenizer's normalizer (`normalizer/pattern.go`)

A shallow embedding of the span-producing matchers of `pattern.go`, of its
scratch-buffer functions, and of the two functions of
`pretrained/added-tokens.go`.

* A Go `string` is a finite sequence of bytes: `GoString = List (Fin 256)`.
* A Go `int` is modelled by `Int`; every quantity that occurs is bounded by the
  byte length of the input, so no machine overflow can happen.
* A Go `rune` (`int32`) is modelled by `Int`.
* `OffsetsMatch.Offsets` is a two element slice in the source; it is a pair here.
* The library functions the source calls (`utf8.RuneLen`, the decoding done by
  `for ... range` over a string) are written out after the Go standard library.
* The matches reported by the two regular expression engines are data: the
  `regexp2` engine is a function from the input to the list of the
  character-index ranges it reports; the `regexp` engine of a literal is the
  leftmost, non-overlapping search for the characters of the literal among the
  characters of the input, every invalid byte of which is read as U+FFFD.
* A buffer obtained from a `sync.Pool` is an argument, a buffer handed to it a
  result; the types of package `tokenizer` used by `added-tokens.go` and its
  `DefaultAddedToken()` are parameters.
-/

namespace Tokenizer

/-- A Go string: its bytes. -/
abbrev GoString := List (Fin 256)

/-- The replacement character `utf8.RuneError` (U+FFFD). -/
def RuneError : Int := 0xFFFD

/-- The constant `utf8.RuneSelf`: bytes below it are single-byte characters. -/
def RuneSelf : Nat := 0x80

/-- Go `len(s)` as an `int`. -/
def len (s : GoString) : Int := (s.length : Int)

/-- The Go function `utf8.RuneLen`: the number of bytes of the UTF-8 encoding
of a rune, `-1` when the rune is not encodable. -/
def RuneLen (r : Int) : Int :=
  if r < 0 then -1
  else if r ≤ 0x7F then 1
  else if r ≤ 0x7FF then 2
  else if 0xD800 ≤ r ∧ r ≤ 0xDFFF then -1
  else if r ≤ 0xFFFF then 3
  else if r ≤ 0x10FFFF then 4
  else -1

/-- The table `first` of package `utf8` together with `acceptRanges`: for a
leading byte, the size of the encoding and the accepted interval of the second
byte; `none` for a byte that cannot start a multi-byte encoding. -/
def leadInfo (b0 : Nat) : Option (Nat × Nat × Nat) :=
  if 0xC2 ≤ b0 ∧ b0 ≤ 0xDF then some (2, 0x80, 0xBF)
  else if b0 = 0xE0 then some (3, 0xA0, 0xBF)
  else if 0xE1 ≤ b0 ∧ b0 ≤ 0xEC then some (3, 0x80, 0xBF)
  else if b0 = 0xED then some (3, 0x80, 0x9F)
  else if 0xEE ≤ b0 ∧ b0 ≤ 0xEF then some (3, 0x80, 0xBF)
  else if b0 = 0xF0 then some (4, 0x90, 0xBF)
  else if 0xF1 ≤ b0 ∧ b0 ≤ 0xF3 then some (4, 0x80, 0xBF)
  else if b0 = 0xF4 then some (4, 0x80, 0x8F)
  else none

/-- A continuation byte lies in `[0x80, 0xBF]`. -/
def isCont (b : Nat) : Bool := decide (0x80 ≤ b ∧ b ≤ 0xBF)

/-- The Go function `utf8.DecodeRuneInString` on the non-empty string
`b0 :: rest`: the decoded rune and its width in bytes. An invalid or truncated
encoding gives `(RuneError, 1)`. The masks `b & 0x1F`, `b & 0x0F`, `b & 0x07`,
`b & 0x3F` are remainders and the shifts are multiplications by powers of two;
the shifted fields do not overlap, so the bitwise `or` is a sum. -/
def decodeRune (b0 : Fin 256) (rest : GoString) : Int × Nat :=
  if b0.val < RuneSelf then ((b0.val : Int), 1)
  else
    match leadInfo b0.val with
    | none => (RuneError, 1)
    | some (sz, lo, hi) =>
      match rest with
      | [] => (RuneError, 1)
      | b1 :: rest1 =>
        if b1.val < lo ∨ hi < b1.val then (RuneError, 1)
        else if sz ≤ 2 then
          ((((b0.val % 32) * 64 + b1.val % 64 : Nat) : Int), 2)
        else
          match rest1 with
          | [] => (RuneError, 1)
          | b2 :: rest2 =>
            if ! isCont b2.val then (RuneError, 1)
            else if sz ≤ 3 then
              ((((b0.val % 16) * 4096 + (b1.val % 64) * 64 + b2.val % 64 : Nat) : Int), 3)
            else
              match rest2 with
              | [] => (RuneError, 1)
              | b3 :: _ =>
                if ! isCont b3.val then (RuneError, 1)
                else
                  ((((b0.val % 8) * 262144 + (b1.val % 64) * 4096
                      + (b2.val % 64) * 64 + b3.val % 64 : Nat) : Int), 4)

/-- One decoded character of a scan: byte offset, rune, width in bytes. -/
structure Decoded where
  pos : Int
  char : Int
  width : Nat
deriving DecidableEq, Repr

/-- The character scan of a string, as `for ... range s` and
`utf8.RuneCountInString` perform it. `skip` counts the bytes of the current
character that are still to be passed over, `pos` is the byte offset of the
head of the remaining bytes. -/
def decodeFrom : Nat → Int → GoString → List Decoded
  | _, _, [] => []
  | skip + 1, pos, _ :: rest => decodeFrom skip (pos + 1) rest
  | 0, pos, b :: rest =>
    let d := decodeRune b rest
    ⟨pos, d.1, d.2⟩ :: decodeFrom (d.2 - 1) (pos + 1) rest

/-- The characters of a string with their byte offsets and widths. -/
def decodeString (s : GoString) : List Decoded := decodeFrom 0 0 s

/-- The pairs `(byteIdx, char)` produced by `for byteIdx, char := range s`. -/
def rangeString (s : GoString) : List (Int × Int) :=
  (decodeString s).map (fun d => (d.pos, d.char))

/-- The Go function `utf8.RuneCountInString`. -/
def RuneCountInString (s : GoString) : Int := ((decodeString s).length : Int)

/-- The Go function `utf8.ValidString`: no step of the scan meets an invalid
encoding, which the decoder reports as `(RuneError, 1)`. -/
def ValidString (s : GoString) : Bool :=
  (decodeString s).all (fun d => ! (d.char == RuneError && d.width == 1))

/-- The type `OffsetsMatch`: a byte range `[start, end)` and the match flag. -/
structure OffsetsMatch where
  Offsets : Int × Int
  Match : Bool
deriving DecidableEq, Repr

/-- Start offset `Offsets[0]`. -/
def OffsetsMatch.start (m : OffsetsMatch) : Int := m.Offsets.1

/-- End offset `Offsets[1]`. -/
def OffsetsMatch.stop (m : OffsetsMatch) : Int := m.Offsets.2

/-- The local variables of the scanning loop of `RunePattern.FindMatches` and
`FnPattern.FindMatches`. -/
structure ScanState where
  subs : List OffsetsMatch
  prevStart : Int
  hasPrevious : Bool
deriving DecidableEq, Repr

/-- The type `RunePattern`. -/
structure RunePattern where
  rune : Int

/-- One iteration of the loop body of `RunePattern.FindMatches`. -/
def RunePattern.step (r : RunePattern) (st : ScanState) (it : Int × Int) : ScanState :=
  let byteIdx := it.1
  let char := it.2
  if char = r.rune then
    let nextIdx := byteIdx + RuneLen char
    let subs :=
      if st.hasPrevious then st.subs ++ [⟨(st.prevStart, byteIdx), false⟩] else st.subs
    let subs := subs ++ [⟨(byteIdx, nextIdx), decide (char = r.rune)⟩]
    ⟨subs, nextIdx, false⟩
  else
    ⟨st.subs, st.prevStart, true⟩

/-- The method `RunePattern.FindMatches`. -/
def RunePattern.FindMatches (r : RunePattern) (inside : GoString) : List OffsetsMatch :=
  if len inside = 0 then [⟨(0, 0), false⟩]
  else
    let st := (rangeString inside).foldl r.step ⟨[], 0, false⟩
    if st.hasPrevious then st.subs ++ [⟨(st.prevStart, len inside), false⟩] else st.subs

/-- The type `FnPattern`; `PatternFn` is `func(rune) bool`. -/
structure FnPattern where
  fn : Int → Bool

/-- One iteration of the loop body of `FnPattern.FindMatches`. -/
def FnPattern.step (fp : FnPattern) (st : ScanState) (it : Int × Int) : ScanState :=
  let byteIdx := it.1
  let char := it.2
  if fp.fn char then
    let nextIdx := byteIdx + RuneLen char
    let subs :=
      if st.hasPrevious then st.subs ++ [⟨(st.prevStart, byteIdx), false⟩] else st.subs
    let subs := subs ++ [⟨(byteIdx, nextIdx), true⟩]
    ⟨subs, nextIdx, false⟩
  else
    ⟨st.subs, st.prevStart, true⟩

/-- The method `FnPattern.FindMatches`. -/
def FnPattern.FindMatches (fp : FnPattern) (inside : GoString) : List OffsetsMatch :=
  if len inside = 0 then [⟨(0, 0), false⟩]
  else
    let st := (rangeString inside).foldl fp.step ⟨[], 0, false⟩
    if st.hasPrevious then st.subs ++ [⟨(st.prevStart, len inside), false⟩] else st.subs

/-- The function `buildMatchesFromIndices`, loop part: `for i, m := range matches`.
The state is `subs` and `currIndex`; the head of the remaining list is
`matches[i]` and the element after it is `matches[i+1]`. -/
def buildLoop : List (Int × Int) → List OffsetsMatch → Int → List OffsetsMatch × Int
  | [], subs, currIndex => (subs, currIndex)
  | m :: rest, subs, currIndex =>
    let subs := subs ++ [⟨m, true⟩]
    let currIndex := currIndex + (m.2 - m.1)
    match rest with
    | [] => buildLoop rest subs currIndex
    | next :: _ =>
      if m.2 ≠ next.1 then
        buildLoop rest (subs ++ [⟨(m.2, next.1), false⟩]) (currIndex + (next.1 - m.2))
      else
        buildLoop rest subs currIndex

/-- The function `buildMatchesFromIndices`; each element of the first argument
is the two element slice `[start, end]` of one match. -/
def buildMatchesFromIndices (ms : List (Int × Int)) (inside : GoString) :
    List OffsetsMatch :=
  match ms with
  | [] => [⟨(0, len inside), false⟩]
  | m0 :: _ =>
    let st : List OffsetsMatch × Int :=
      if m0.1 > 0 then ([⟨(0, m0.1), false⟩], m0.1) else ([], 0)
    let r := buildLoop ms st.1 st.2
    if r.2 < len inside then r.1 ++ [⟨(r.2, len inside), false⟩] else r.1

/-- A compiled `regexp.Regexp`, seen through the one method the source calls:
`FindAllStringIndex(inside, -1)`, the byte ranges of the successive matches. -/
structure Regexp where
  FindAllStringIndex : GoString → List (Int × Int)

/-- The function `findMatches`. -/
def findMatches (re : Regexp) (inside : GoString) : List OffsetsMatch :=
  buildMatchesFromIndices (re.FindAllStringIndex inside) inside

/-- The sum of the widths of the first `m` decoded characters. -/
def takeWidth (m : Nat) (ds : List Decoded) : Int :=
  (((ds.take m).map (fun d => (d.width : Int))).sum)

/-- The matches, as byte ranges, that the Go package `regexp` reports through
`FindAllStringIndex(inside, -1)` for a literal whose characters are `pat`, a
non-empty list. The engine reads the input character by character as the
`range` loop does, every invalid byte as U+FFFD of width one, and compares
characters: a match starts at the first character boundary at which the
characters of the input begin with `pat`, it ends after `len(pat)` characters,
and the search resumes at its end. `skip` bytes are still to be passed over,
`pos` is the byte offset of the head of the remaining input. -/
def literalScan (pat : List Int) : Nat → Int → GoString → List (Int × Int)
  | _, _, [] => []
  | skip + 1, pos, _ :: rest => literalScan pat skip (pos + 1) rest
  | 0, pos, b :: rest =>
    if pat.isPrefixOf ((decodeFrom 0 pos (b :: rest)).map (fun d => d.char)) then
      (pos, pos + takeWidth pat.length (decodeFrom 0 pos (b :: rest)))
        :: literalScan pat ((takeWidth pat.length (decodeFrom 0 pos (b :: rest))).toNat - 1)
            (pos + 1) rest
    else
      literalScan pat ((decodeRune b rest).2 - 1) (pos + 1) rest

/-- The regular expression `regexp.MustCompile(regexp.QuoteMeta(s))` of the Go
package `regexp`, for a text `s` that is valid UTF-8: its characters are those
of `s`, each standing for itself. Its successive matches are the leftmost
non-overlapping occurrences of that sequence of characters in the characters of
the input; the empty text matches, with length zero, at every character
boundary. -/
def quoteMetaRegexp (s : GoString) : Regexp :=
  ⟨fun inside =>
    if s = [] then
      ((decodeString inside).map (fun d => (d.pos, d.pos))) ++ [(len inside, len inside)]
    else literalScan ((decodeString s).map (fun d => d.char)) 0 0 inside⟩

/-- The type `StringPattern`. -/
structure StringPattern where
  s : GoString
  re : Regexp

/-- The constructor `NewStringPattern`: the pattern it returns when it returns,
that is when `NewStringPatternPanics s` is `false`. -/
def NewStringPattern (s : GoString) : StringPattern :=
  ⟨s, quoteMetaRegexp s⟩

/-- The method `StringPattern.FindMatches`. -/
def StringPattern.FindMatches (sp : StringPattern) (inside : GoString) : List OffsetsMatch :=
  if sp.s = [] then [⟨(0, len inside), false⟩]
  else findMatches sp.re inside

/-- A compiled `regexp2.Regexp`, seen through `collectRegexp2Indices`: the list
of `[start, end)` character-index ranges of its successive matches in an
input. -/
abbrev Regexp2 := GoString → List (Int × Int)

/-- The variable `asciiOnly` of `findMatchesRegexp2`: no byte reaches `utf8.RuneSelf`. -/
def asciiOnly (inside : GoString) : Bool :=
  inside.all (fun b => decide (b.val < RuneSelf))

/-- The offset table `runeToByte` of `findMatchesRegexp2`, built when the input
is not ASCII-only: the byte offset of every character, then `len(inside)`; the
slice stays empty on the ASCII path. -/
def runeToByteTable (inside : GoString) : List Int :=
  if asciiOnly inside then []
  else (rangeString inside).map (fun it => it.1) ++ [len inside]

/-- The closure `toByte` of `findMatchesRegexp2`. The table is indexed only
under the negation of both guards, which bounds the index. -/
def toByte (inside : GoString) (runeIdx : Int) : Int :=
  if h0 : runeIdx < 0 then 0
  else if asciiOnly inside then
    if runeIdx > len inside then len inside else runeIdx
  else if h1 : runeIdx ≥ ((runeToByteTable inside).length : Int) then len inside
  else (runeToByteTable inside).get ⟨runeIdx.toNat, by omega⟩

/-- One iteration of the assembly loop of `findMatchesRegexp2`; the state is
`matches` and `curr`. -/
def regexp2Step (inside : GoString) (st : List OffsetsMatch × Int) (rm : Int × Int) :
    List OffsetsMatch × Int :=
  let start := toByte inside rm.1
  let stop := toByte inside rm.2
  let out := if start > st.2 then st.1 ++ [⟨(st.2, start), false⟩] else st.1
  (out ++ [⟨(start, stop), true⟩], stop)

/-- The function `findMatchesRegexp2`. -/
def findMatchesRegexp2 (re : Regexp2) (inside : GoString) : List OffsetsMatch :=
  let runeMatches := re inside
  if runeMatches.length = 0 then [⟨(0, len inside), false⟩]
  else
    let st := runeMatches.foldl (regexp2Step inside) ([], 0)
    if st.2 < len inside then st.1 ++ [⟨(st.2, len inside), false⟩] else st.1

/-- The type `RegexpPattern`. -/
structure RegexpPattern where
  re : Regexp2
  source : GoString

/-- The method `RegexpPattern.FindMatches`. -/
def RegexpPattern.FindMatches (rp : RegexpPattern) (inside : GoString) : List OffsetsMatch :=
  if len inside = 0 then [⟨(0, 0), false⟩]
  else findMatchesRegexp2 rp.re inside

/-- The function `invert`. -/
def invert (ms : List OffsetsMatch) : List OffsetsMatch :=
  ms.map (fun m => { m with Match := ! m.Match })

/-- The interface `Pattern` with its five implementations; `invert` is the
type `Invert`, which wraps another pattern. -/
inductive Pattern where
  | rune (p : RunePattern)
  | string (p : StringPattern)
  | regexp (p : RegexpPattern)
  | fn (p : FnPattern)
  | invert (p : Pattern)

/-- The method `FindMatches` of the interface `Pattern`; the last case is
`Invert.FindMatches`. -/
def Pattern.FindMatches : Pattern → GoString → List OffsetsMatch
  | .rune p, inside => p.FindMatches inside
  | .string p, inside => p.FindMatches inside
  | .regexp p, inside => p.FindMatches inside
  | .fn p, inside => p.FindMatches inside
  | .invert p, inside => Tokenizer.invert (p.FindMatches inside)

/-- Every `StringPattern` inside a pattern was built by `NewStringPattern`, the
only way to build one outside the package. -/
def Pattern.Built : Pattern → Prop
  | .string p => p = NewStringPattern p.s
  | .invert p => p.Built
  | _ => True

/-- The number of `Invert` wrappers around the innermost pattern. -/
def Pattern.depth : Pattern → Nat
  | .invert p => p.depth + 1
  | _ => 0

/-- The closure `toByte` of `findMatchesRegexp2` with the table lookup
`runeToByte[runeIdx]` as a checked access: `none` stands for an index outside
the table. -/
def toByteChecked (inside : GoString) (runeIdx : Int) : Option Int :=
  if runeIdx < 0 then some 0
  else if asciiOnly inside then
    if runeIdx > len inside then some (len inside) else some runeIdx
  else if runeIdx ≥ ((runeToByteTable inside).length : Int) then some (len inside)
  else (runeToByteTable inside)[runeIdx.toNat]?

/-! ## Scratch buffers -/

/-- A Go slice that starts at the beginning of its backing array: the array
(its length is the capacity) and the length of the slice. Elements of the array
at or after `len` are stale contents, not visible through the slice. -/
structure Slice (α : Type) where
  array : List α
  len : Nat
deriving DecidableEq, Repr

/-- Go `cap(s)`. -/
def Slice.cap {α : Type} (b : Slice α) : Int := (b.array.length : Int)

/-- The elements visible through the slice. -/
def Slice.elems {α : Type} (b : Slice α) : List α := b.array.take b.len

/-- Go `make([]T, 0, n)`: a fresh zeroed array of capacity `n`, length 0. -/
def make {α : Type} (zero : α) (n : Int) : Slice α := ⟨List.replicate n.toNat zero, 0⟩

/-- Go `s[:0]`: the same array, length 0. -/
def Slice.reset {α : Type} (b : Slice α) : Slice α := ⟨b.array, 0⟩

/-- The function `getRuneToByteScratch`; `pooled` is the buffer returned by
`runeToBytePool.Get()`. -/
def getRuneToByteScratch (pooled : Slice Int) (minCap : Int) : Slice Int :=
  if pooled.cap < minCap then make 0 minCap else pooled.reset

/-- The function `putRuneToByteScratch`: the buffer handed to `runeToBytePool.Put`. -/
def putRuneToByteScratch (buf : Slice Int) : Slice Int :=
  let maxRetainedCap : Int := 2 ^ 20
  if buf.cap > maxRetainedCap then make 0 256 else buf.reset

/-- The function `getRegexp2MatchScratch`; `pooled` is the buffer returned by
`regexp2MatchPool.Get()`. -/
def getRegexp2MatchScratch (pooled : Slice (Int × Int)) (minCap : Int) : Slice (Int × Int) :=
  if pooled.cap < minCap then make (0, 0) minCap else pooled.reset

/-- The function `putRegexp2MatchScratch`: the buffer handed to
`regexp2MatchPool.Put`. -/
def putRegexp2MatchScratch (buf : Slice (Int × Int)) : Slice (Int × Int) :=
  let maxRetainedCap : Int := 2 ^ 14
  if buf.cap > maxRetainedCap then make (0, 0) 16 else buf.reset

/-! ## Added tokens (`pretrained/added-tokens.go`) -/

/-- The type `tokenizer.TokenConfig`, with the fields the source reads. The
type `I` of the field `Id` is declared outside the files at hand. -/
structure TokenConfig (I : Type) where
  Id : I
  Content : GoString
  SingleWord : Bool
  Lstrip : Bool
  Rstrip : Bool
  Normalized : Bool
  Special : Bool

/-- The type `tokenizer.AddedToken`, with the fields the source assigns; `extra`
stands for whatever else the type holds. -/
structure AddedToken (E : Type) where
  Content : GoString
  SingleWord : Bool
  LStrip : Bool
  RStrip : Bool
  Normalized : Bool
  extra : E

/-- The type `tokenizer.AddedTokenWithId`. -/
structure AddedTokenWithId (E : Type) where
  Id : Int
  Special : Bool
  Token : AddedToken E

/-- The token built in the loop body of both functions of `added-tokens.go`
from `tokenizer.DefaultAddedToken()` (the argument `dflt`) and one entry. -/
def buildToken {I E : Type} (dflt : AddedToken E) (d : TokenConfig I) : AddedToken E :=
  let tok := dflt
  let tok := { tok with Content := d.Content }
  let tok := { tok with LStrip := d.Lstrip }
  let tok := { tok with Normalized := d.Normalized }
  let tok := { tok with RStrip := d.Rstrip }
  let tok := { tok with SingleWord := d.SingleWord }
  tok

/-- The function `CreateAddedTokens`; the result is `(specialToks, toks)`. -/
def CreateAddedTokens {I E : Type} (dflt : AddedToken E) (data : List (TokenConfig I)) :
    List (AddedToken E) × List (AddedToken E) :=
  data.foldl
    (fun acc d =>
      let tok := buildToken dflt d
      if d.Special then (acc.1 ++ [tok], acc.2) else (acc.1, acc.2 ++ [tok]))
    ([], [])

/-- The function `CreateAddedTokensWithIds`; `toInt` is the conversion `int(d.Id)`. -/
def CreateAddedTokensWithIds {I E : Type} (dflt : AddedToken E) (toInt : I → Int)
    (data : List (TokenConfig I)) : List (AddedTokenWithId E) :=
  data.foldl
    (fun result d =>
      let tok := buildToken dflt d
      result ++ [⟨toInt d.Id, d.Special, tok⟩])
    []

/-! ## Properties of span sequences -/

/-- A valid covering sequence of `[0, N)`: it has a first span and that span
starts at `0`, every span has `start ≤ end`, every span starts where the
previous one ends, and the last span ends at `N`. -/
def ValidCovering (N : Int) (xs : List OffsetsMatch) : Prop :=
  xs.head?.map OffsetsMatch.start = some 0 ∧
  (∀ x ∈ xs, x.start ≤ x.stop) ∧
  xs.Chain' (fun x y => y.start = x.stop) ∧
  xs.getLast?.map OffsetsMatch.stop = some N

instance (N : Int) (xs : List OffsetsMatch) : Decidable (ValidCovering N xs) := by
  unfold ValidCovering
  infer_instance

/-- Spans tile `[a, b)`: they are contiguous from `a` to `b`, each with
`start ≤ end`. -/
def Tiles (a b : Int) : List OffsetsMatch → Prop
  | [] => a = b
  | x :: xs => x.start = a ∧ x.start ≤ x.stop ∧ Tiles x.stop b xs

/-- Decoded characters are consecutive from byte `a` to byte `b`, each at least
one byte wide. -/
def Consec (a b : Int) : List Decoded → Prop
  | [] => a = b
  | d :: ds => d.pos = a ∧ 1 ≤ d.width ∧ Consec (a + d.width) b ds

/-- No two neighbouring spans are both unmatched. -/
def NoTwoUnmatched (xs : List OffsetsMatch) : Prop :=
  xs.Chain' (fun x y => ¬ (x.Match = false ∧ y.Match = false))

instance (xs : List OffsetsMatch) : Decidable (NoTwoUnmatched xs) := by
  unfold NoTwoUnmatched
  infer_instance

/-- The byte ranges of the matched spans of a sequence, in order. -/
def matchedRanges (xs : List OffsetsMatch) : List (Int × Int) :=
  (xs.filter (fun x => x.Match)).map (fun x => x.Offsets)

/-- The byte ranges of the unmatched spans of a sequence, in order. -/
def unmatchedRanges (xs : List OffsetsMatch) : List (Int × Int) :=
  (xs.filter (fun x => ! x.Match)).map (fun x => x.Offsets)

/-- The gaps left in `[a, N)` by a list of ranges: before the first range,
between neighbouring ranges, and after the last one (empty gaps included). -/
def gapsOf (a N : Int) : List (Int × Int) → List (Int × Int)
  | [] => [(a, N)]
  | m :: rest => (a, m.1) :: gapsOf m.2 N rest

/-- The non-empty gaps left in `[0, N)` by a list of ranges. -/
def nonEmptyGaps (N : Int) (ms : List (Int × Int)) : List (Int × Int) :=
  (gapsOf 0 N ms).filter (fun g => decide (g.1 < g.2))

/-- The end of the last range, `a` when there is none. -/
def lastEnd (a : Int) : List (Int × Int) → Int
  | [] => a
  | m :: rest => lastEnd m.2 rest

/-- The spans that interleave the ranges with the non-empty gaps before each
of them, starting at `a`, without a trailing span. -/
def interleave (a : Int) : List (Int × Int) → List OffsetsMatch
  | [] => []
  | m :: rest =>
    (if a < m.1 then [⟨(a, m.1), false⟩] else []) ++ ⟨m, true⟩ :: interleave m.2 rest

/-- The interleaving of the ranges with all their non-empty gaps in `[a, N)`. -/
def coveringSpans (a N : Int) (ms : List (Int × Int)) : List OffsetsMatch :=
  interleave a ms ++ (if lastEnd a ms < N then [⟨(lastEnd a ms, N), false⟩] else [])

/-- The ranges are in ascending order and do not overlap. -/
def Ascending (ms : List (Int × Int)) : Prop :=
  ms.Chain' (fun m n => m.2 ≤ n.1)

instance (ms : List (Int × Int)) : Decidable (Ascending ms) := by
  unfold Ascending
  infer_instance

/-- The ranges lie at or after `a`, in ascending order without overlap, each
with `start ≤ end`. -/
def RangesFrom (a : Int) : List (Int × Int) → Prop
  | [] => True
  | m :: rest => a ≤ m.1 ∧ m.1 ≤ m.2 ∧ RangesFrom m.2 rest

/-- The byte offset at which character `i` of a string starts: the sum of the
widths of the characters before it (the byte length of the string when `i` is
the number of characters). -/
def charOffset (s : GoString) (i : Nat) : Int :=
  (((decodeString s).take i).map (fun d => (d.width : Int))).sum

/-- The byte ranges of a list of character-index ranges. -/
def byteRanges (s : GoString) (ms : List (Int × Int)) : List (Int × Int) :=
  ms.map (fun m => (charOffset s m.1.toNat, charOffset s m.2.toNat))

/-- The start offsets do not decrease from one span to the next. -/
def StartsNonDecreasing (xs : List OffsetsMatch) : Prop :=
  xs.Chain' (fun x y => x.start ≤ y.start)

instance (xs : List OffsetsMatch) : Decidable (StartsNonDecreasing xs) := by
  unfold StartsNonDecreasing
  infer_instance

/-- The start offsets strictly increase from one span to the next. -/
def StartsIncreasing (xs : List OffsetsMatch) : Prop :=
  xs.Chain' (fun x y => x.start < y.start)

instance (xs : List OffsetsMatch) : Decidable (StartsIncreasing xs) := by
  unfold StartsIncreasing
  infer_instance

/-- The conditions under which a matcher is used on an input: the rune and
predicate matchers scan valid UTF-8, a literal matcher was built by
`NewStringPattern`, and the `regexp2` engine reports character-index ranges
inside the input, each with `start ≤ end`, in ascending order without overlap. -/
def Pattern.Regular : Pattern → GoString → Prop
  | .rune _, s => ValidString s = true
  | .fn _, s => ValidString s = true
  | .string p, _ => p = NewStringPattern p.s
  | .regexp p, s =>
    (∀ m ∈ p.re s, 0 ≤ m.1 ∧ m.1 ≤ m.2 ∧ m.2 ≤ RuneCountInString s) ∧ Ascending (p.re s)
  | .invert p, s => p.Regular s

/-- No match reported by the `regexp2` engine for the input has length zero. -/
def Pattern.NonEmptyMatches : Pattern → GoString → Prop
  | .regexp p, s => ∀ m ∈ p.re s, m.1 < m.2
  | .invert p, s => p.NonEmptyMatches s
  | _, _ => True

/-- The loop invariant of the scanning loop of `RunePattern.FindMatches` and
`FnPattern.FindMatches` when the scan has reached byte `a`: the spans emitted
so far tile `[0, prevStart)`, a run is pending exactly when `prevStart < a`,
every emitted span is non-empty, no two neighbours are both unmatched, and the
last emitted span is a matched one. -/
structure ScanInv (a : Int) (st : ScanState) : Prop where
  tiles : Tiles 0 st.prevStart st.subs
  le : st.prevStart ≤ a
  pending : st.hasPrevious = true ↔ st.prevStart < a
  nonempty : ∀ x ∈ st.subs, x.start < x.stop
  alt : NoTwoUnmatched st.subs
  lastMatched : ∀ x, st.subs.getLast? = some x → x.Match = true

theorem Tiles.le {a b : Int} {xs : List OffsetsMatch} (h : Tiles a b xs) : a ≤ b := by
  induction xs generalizing a with
  | nil => simp [Tiles] at h; omega
  | cons x xs ih =>
    obtain ⟨h1, h2, h3⟩ := h
    have := ih h3
    omega

theorem Tiles.append {a b c : Int} {xs ys : List OffsetsMatch}
    (h1 : Tiles a b xs) (h2 : Tiles b c ys) : Tiles a c (xs ++ ys) := by
  induction xs generalizing a with
  | nil => simp [Tiles] at h1; subst h1; simpa using h2
  | cons x xs ih =>
    obtain ⟨p, q, r⟩ := h1
    exact ⟨p, q, ih r⟩

theorem Tiles.single {a b : Int} (m : Bool) (h : a ≤ b) : Tiles a b [⟨(a, b), m⟩] := by
  simp [Tiles, OffsetsMatch.start, OffsetsMatch.stop, h]

theorem Tiles.snoc {a b c : Int} {xs : List OffsetsMatch} (m : Bool)
    (h1 : Tiles a b xs) (h2 : b ≤ c) : Tiles a c (xs ++ [⟨(b, c), m⟩]) :=
  h1.append (Tiles.single m h2)

theorem Tiles.parts {a b : Int} {xs : List OffsetsMatch} (h : Tiles a b xs) (hne : xs ≠ []) :
    xs.head?.map OffsetsMatch.start = some a ∧
    (∀ x ∈ xs, x.start ≤ x.stop) ∧
    xs.Chain' (fun x y => y.start = x.stop) ∧
    xs.getLast?.map OffsetsMatch.stop = some b := by
  induction xs generalizing a with
  | nil => exact absurd rfl hne
  | cons x xs ih =>
    obtain ⟨p, q, r⟩ := h
    cases xs with
    | nil =>
      simp only [Tiles] at r
      refine ⟨by simp [p], ?_, by simp, by simp [r]⟩
      intro z hz
      rcases List.mem_singleton.1 hz with rfl
      exact q
    | cons y ys =>
      obtain ⟨i1, i2, i3, i4⟩ := ih r (by simp)
      refine ⟨by simp [p], ?_, ?_, ?_⟩
      · intro z hz
        rcases List.mem_cons.1 hz with rfl | hz
        · exact q
        · exact i2 z hz
      · refine List.chain'_cons.2 ⟨?_, i3⟩
        simpa using i1
      · rw [List.getLast?_cons_cons]; exact i4

theorem Tiles.valid {N : Int} {xs : List OffsetsMatch} (h : Tiles 0 N xs) (hne : xs ≠ []) :
    ValidCovering N xs :=
  h.parts hne

/-! ## The character scan -/

theorem decodeRune_width (b : Fin 256) (rest : GoString) :
    1 ≤ (decodeRune b rest).2 ∧ (decodeRune b rest).2 ≤ rest.length + 1 := by
  unfold decodeRune
  split
  · simp
  · split
    · simp
    · split
      · simp
      · split
        · simp
        · split
          · simp
          · split
            · simp
            · split
              · simp
              · split
                · simp
                · split
                  · simp
                  · split
                    · simp
                    · simp

theorem leadInfo_spec {n sz lo hi : Nat} (h : leadInfo n = some (sz, lo, hi)) :
    (sz = 2 ∧ lo = 0x80 ∧ hi = 0xBF ∧ 0xC2 ≤ n ∧ n ≤ 0xDF) ∨
    (sz = 3 ∧ n = 0xE0 ∧ lo = 0xA0 ∧ hi = 0xBF) ∨
    (sz = 3 ∧ 0xE1 ≤ n ∧ n ≤ 0xEF ∧ n ≠ 0xED ∧ lo = 0x80 ∧ hi = 0xBF) ∨
    (sz = 3 ∧ n = 0xED ∧ lo = 0x80 ∧ hi = 0x9F) ∨
    (sz = 4 ∧ n = 0xF0 ∧ lo = 0x90 ∧ hi = 0xBF) ∨
    (sz = 4 ∧ 0xF1 ≤ n ∧ n ≤ 0xF3 ∧ lo = 0x80 ∧ hi = 0xBF) ∨
    (sz = 4 ∧ n = 0xF4 ∧ lo = 0x80 ∧ hi = 0x8F) := by
  unfold leadInfo at h
  split_ifs at h <;> simp only [Option.some.injEq, Prod.mk.injEq] at h <;> omega

theorem isCont_false {n : Nat} (h : ¬ ((! isCont n) = true)) : 0x80 ≤ n ∧ n ≤ 0xBF := by
  simpa [isCont] using h

theorem decodeRune_cases {b : Fin 256} {rest : GoString} {r : Int} {w : Nat}
    (h : decodeRune b rest = (r, w)) :
    (r = RuneError ∧ w = 1) ∨ RuneLen r = (w : Int) := by
  unfold decodeRune at h
  simp only [RuneSelf] at h
  split at h
  · cases h
    right
    simp only [RuneLen]
    split_ifs <;> omega
  split at h
  · cases h; exact Or.inl ⟨rfl, rfl⟩
  rename_i sz lo hi hl
  have hs := leadInfo_spec hl
  split at h
  · cases h; exact Or.inl ⟨rfl, rfl⟩
  rename_i b1 rest1
  split at h
  · cases h; exact Or.inl ⟨rfl, rfl⟩
  rename_i hb1
  split at h
  · cases h
    right
    simp only [RuneLen]
    split_ifs <;> omega
  split at h
  · cases h; exact Or.inl ⟨rfl, rfl⟩
  rename_i b2 rest2
  split at h
  · cases h; exact Or.inl ⟨rfl, rfl⟩
  rename_i hb2
  have hb2 := isCont_false hb2
  split at h
  · cases h
    right
    simp only [RuneLen]
    split_ifs <;> omega
  split at h
  · cases h; exact Or.inl ⟨rfl, rfl⟩
  rename_i b3 rest3
  split at h
  · cases h; exact Or.inl ⟨rfl, rfl⟩
  rename_i hb3
  have hb3 := isCont_false hb3
  cases h
  right
  simp only [RuneLen]
  split_ifs <;> omega

theorem decodeRune_runeLen (b : Fin 256) (rest : GoString) :
    ((decodeRune b rest).1 = RuneError ∧ (decodeRune b rest).2 = 1) ∨
      RuneLen (decodeRune b rest).1 = ((decodeRune b rest).2 : Int) :=
  decodeRune_cases rfl

theorem decodeFrom_consec (s : GoString) :
    ∀ (skip : Nat) (pos : Int), skip ≤ s.length →
      Consec (pos + skip) (pos + s.length) (decodeFrom skip pos s) := by
  induction s with
  | nil =>
    intro skip pos h
    have : skip = 0 := by simpa using h
    subst this
    simp [decodeFrom, Consec]
  | cons b rest ih =>
    intro skip pos h
    cases skip with
    | zero =>
      have hw := decodeRune_width b rest
      have := ih ((decodeRune b rest).2 - 1) (pos + 1) (by omega)
      simp only [decodeFrom, Consec]
      refine ⟨by simp, hw.1, ?_⟩
      have e1 : pos + ((0 : Nat) : Int) + ((decodeRune b rest).2 : Int)
          = pos + 1 + (((decodeRune b rest).2 - 1 : Nat) : Int) := by omega
      have e2 : pos + (((b :: rest).length : Nat) : Int) = pos + 1 + (rest.length : Int) := by
        simp only [List.length_cons]; omega
      rw [e1, e2]
      exact this
    | succ k =>
      have := ih k (pos + 1) (by simpa using h)
      simp only [decodeFrom]
      have e1 : pos + ((k + 1 : Nat) : Int) = pos + 1 + (k : Int) := by omega
      have e2 : pos + (((b :: rest).length : Nat) : Int) = pos + 1 + (rest.length : Int) := by
        simp only [List.length_cons]; omega
      rw [e1, e2]
      exact this

theorem decodeString_consec (s : GoString) : Consec 0 (len s) (decodeString s) := by
  have := decodeFrom_consec s 0 0 (Nat.zero_le _)
  simpa [decodeString, len] using this

theorem decodeFrom_runeLen (s : GoString) :
    ∀ (skip : Nat) (pos : Int), ∀ d ∈ decodeFrom skip pos s,
      (d.char = RuneError ∧ d.width = 1) ∨ RuneLen d.char = (d.width : Int) := by
  induction s with
  | nil => intro skip pos d hd; simp [decodeFrom] at hd
  | cons b rest ih =>
    intro skip pos d hd
    cases skip with
    | zero =>
      simp only [decodeFrom, List.mem_cons] at hd
      rcases hd with rfl | hd
      · exact decodeRune_runeLen b rest
      · exact ih _ _ d hd
    | succ k =>
      simp only [decodeFrom] at hd
      exact ih _ _ d hd

/-- On a valid string every decoded character is as wide as `utf8.RuneLen` says. -/
theorem valid_runeLen {s : GoString} (hv : ValidString s = true) :
    ∀ d ∈ decodeString s, RuneLen d.char = (d.width : Int) := by
  intro d hd
  rcases decodeFrom_runeLen s 0 0 d hd with ⟨h1, h2⟩ | h
  · have := List.all_eq_true.1 hv d hd
    simp [h1, h2] at this
  · exact h

theorem decodeString_ne_nil {s : GoString} (h : s ≠ []) : decodeString s ≠ [] := by
  cases s with
  | nil => exact absurd rfl h
  | cons b rest => simp [decodeString, decodeFrom]

/-! ## The scanning loop -/

theorem RunePattern.step_eq (r : RunePattern) :
    r.step = (FnPattern.mk (fun c => decide (c = r.rune))).step := by
  funext st it
  unfold RunePattern.step FnPattern.step
  by_cases h : it.2 = r.rune <;> simp [h]

theorem RunePattern.FindMatches_eq (r : RunePattern) (inside : GoString) :
    r.FindMatches inside = (FnPattern.mk (fun c => decide (c = r.rune))).FindMatches inside := by
  unfold RunePattern.FindMatches FnPattern.FindMatches
  rw [RunePattern.step_eq]

theorem scanInv_init : ScanInv 0 ⟨[], 0, false⟩ where
  tiles := by simp [Tiles]
  le := le_refl _
  pending := by simp
  nonempty := by simp
  alt := by simp [NoTwoUnmatched]
  lastMatched := by simp

theorem noTwoUnmatched_snoc {xs : List OffsetsMatch} {y : OffsetsMatch}
    (h : NoTwoUnmatched xs)
    (hl : ∀ x, xs.getLast? = some x → x.Match = true ∨ y.Match = true) :
    NoTwoUnmatched (xs ++ [y]) := by
  unfold NoTwoUnmatched at *
  rw [List.chain'_append]
  refine ⟨h, by simp, ?_⟩
  intro x hx z hz
  simp only [List.head?_cons, Option.mem_def, Option.some.injEq] at hz
  subst hz
  rcases hl x hx with h1 | h1 <;> simp [h1]

theorem getLast?_snoc {α : Type} (xs : List α) (y : α) : (xs ++ [y]).getLast? = some y := by
  simp

theorem scanInv_step (fp : FnPattern) {a : Int} {st : ScanState} {d : Decoded}
    (inv : ScanInv a st) (hp : d.pos = a) (hw : 1 ≤ d.width)
    (hl : RuneLen d.char = (d.width : Int)) :
    ScanInv (a + d.width) (fp.step st (d.pos, d.char)) := by
  unfold FnPattern.step
  dsimp only
  by_cases hf : fp.fn d.char = true
  · rw [if_pos hf, hl, hp]
    rcases Bool.eq_false_or_eq_true st.hasPrevious with hprev | hprev
    · have hlt := inv.pending.1 hprev
      simp only [hprev, if_true]
      refine ⟨?_, le_refl _, by simp, ?_, ?_, ?_⟩
      · show Tiles 0 (a + d.width) _
        exact (inv.tiles.snoc false hlt.le).snoc true (by omega)
      · intro x hx
        simp only [List.mem_append, List.mem_singleton] at hx
        rcases hx with (hx | rfl) | rfl
        · exact inv.nonempty x hx
        · simpa [OffsetsMatch.start, OffsetsMatch.stop] using hlt
        · simp only [OffsetsMatch.start, OffsetsMatch.stop]; omega
      · refine noTwoUnmatched_snoc (noTwoUnmatched_snoc inv.alt ?_) (by simp)
        intro x hx
        exact Or.inl (inv.lastMatched x hx)
      · intro x hx
        rw [show st.subs ++ [(⟨(st.prevStart, a), false⟩ : OffsetsMatch)]
            ++ [⟨(a, a + d.width), true⟩] = (st.subs ++ [⟨(st.prevStart, a), false⟩])
            ++ [⟨(a, a + d.width), true⟩] from rfl, getLast?_snoc] at hx
        cases hx
        rfl
    · have hge : st.prevStart = a := by
        have h1 := inv.le
        by_contra hne
        have := inv.pending.2 (by omega)
        rw [hprev] at this
        exact Bool.false_ne_true this
      simp only [hprev, Bool.false_eq_true, if_false]
      refine ⟨?_, le_refl _, by simp, ?_, ?_, ?_⟩
      · show Tiles 0 (a + d.width) _
        have := inv.tiles
        rw [hge] at this
        exact this.snoc true (by omega)
      · intro x hx
        simp only [List.mem_append, List.mem_singleton] at hx
        rcases hx with hx | rfl
        · exact inv.nonempty x hx
        · simp only [OffsetsMatch.start, OffsetsMatch.stop]; omega
      · exact noTwoUnmatched_snoc inv.alt (by simp)
      · intro x hx
        rw [getLast?_snoc] at hx
        cases hx
        rfl
  · rw [if_neg hf]
    refine ⟨inv.tiles, ?_, ?_, inv.nonempty, inv.alt, inv.lastMatched⟩
    · have := inv.le
      show st.prevStart ≤ a + d.width
      omega
    · have := inv.le
      show (true = true) ↔ st.prevStart < a + d.width
      simp only [true_iff]
      omega

theorem scanInv_fold (fp : FnPattern) :
    ∀ (ds : List Decoded) (a b : Int) (st : ScanState),
      Consec a b ds → (∀ d ∈ ds, RuneLen d.char = (d.width : Int)) → ScanInv a st →
      ScanInv b ((ds.map (fun d => (d.pos, d.char))).foldl fp.step st) := by
  intro ds
  induction ds with
  | nil =>
    intro a b st hc _ inv
    simp only [Consec] at hc
    subst hc
    simpa using inv
  | cons d ds ih =>
    intro a b st hc hl inv
    obtain ⟨hp, hw, hc⟩ := hc
    simp only [List.map_cons, List.foldl_cons]
    exact ih _ _ _ hc (fun e he => hl e (List.mem_cons_of_mem _ he))
      (scanInv_step fp inv hp hw (hl d (List.mem_cons_self _ _)))

theorem Consec.last {ds : List Decoded} {d : Decoded} :
    ∀ {a b : Int}, Consec a b (ds ++ [d]) → d.pos + d.width = b := by
  induction ds with
  | nil =>
    intro a b h
    obtain ⟨h1, _, h3⟩ := h
    simp only [Consec] at h3
    omega
  | cons e es ih =>
    intro a b h
    exact ih h.2.2

theorem len_ne_zero {s : GoString} (h : s ≠ []) : len s ≠ 0 := by
  cases s with
  | nil => exact absurd rfl h
  | cons b rest => simp only [len, List.length_cons]; omega

/-- What the scanning loop returns on a non-empty valid string: a non-empty
tiling of `[0, len)` by non-empty spans, no two neighbours both unmatched. -/
theorem FnPattern.scan_result (fp : FnPattern) {s : GoString} (hne : s ≠ [])
    (hv : ValidString s = true) :
    Tiles 0 (len s) (fp.FindMatches s) ∧ fp.FindMatches s ≠ [] ∧
      (∀ x ∈ fp.FindMatches s, x.start < x.stop) ∧ NoTwoUnmatched (fp.FindMatches s) := by
  have hlen := len_ne_zero hne
  have hpos : 0 < len s := by
    have : 0 ≤ len s := by simp [len]
    omega
  have inv := scanInv_fold fp (decodeString s) 0 (len s) ⟨[], 0, false⟩
    (decodeString_consec s) (valid_runeLen hv) scanInv_init
  unfold FnPattern.FindMatches
  rw [if_neg hlen]
  unfold rangeString
  dsimp only
  generalize ((decodeString s).map (fun d => (d.pos, d.char))).foldl fp.step ⟨[], 0, false⟩
    = st at inv ⊢
  rcases Bool.eq_false_or_eq_true st.hasPrevious with hprev | hprev
  · have hlt := inv.pending.1 hprev
    simp only [hprev, if_true]
    refine ⟨inv.tiles.snoc false hlt.le, by simp, ?_, ?_⟩
    · intro x hx
      simp only [List.mem_append, List.mem_singleton] at hx
      rcases hx with hx | rfl
      · exact inv.nonempty x hx
      · simpa [OffsetsMatch.start, OffsetsMatch.stop] using hlt
    · exact noTwoUnmatched_snoc inv.alt (fun x hx => Or.inl (inv.lastMatched x hx))
  · have hge : st.prevStart = len s := by
      have h1 := inv.le
      by_contra hne
      have := inv.pending.2 (by omega)
      rw [hprev] at this
      exact Bool.false_ne_true this
    simp only [hprev, Bool.false_eq_true, if_false]
    have ht := inv.tiles
    rw [hge] at ht
    refine ⟨ht, ?_, inv.nonempty, inv.alt⟩
    intro hnil
    rw [hnil] at ht
    simp only [Tiles] at ht
    omega

/-- When the last character of a non-empty valid string satisfies the predicate,
the last span returned is the matched span of that character and it ends at
`len`. -/
theorem FnPattern.scan_last (fp : FnPattern) {s : GoString} (hne : s ≠ [])
    (hv : ValidString s = true) {d : Decoded} (hd : (decodeString s).getLast? = some d)
    (hf : fp.fn d.char = true) :
    (fp.FindMatches s).getLast? = some ⟨(d.pos, len s), true⟩ := by
  have hlen := len_ne_zero hne
  obtain ⟨ini, hini⟩ : ∃ ini, decodeString s = ini ++ [d] := by
    rcases List.getLast?_eq_some_iff.1 hd with ⟨ys, hys⟩
    exact ⟨ys, hys⟩
  have hc := decodeString_consec s
  rw [hini] at hc
  have hend := hc.last
  have hl : RuneLen d.char = (d.width : Int) :=
    valid_runeLen hv d (by rw [hini]; simp)
  unfold FnPattern.FindMatches
  rw [if_neg hlen]
  unfold rangeString
  dsimp only
  rw [hini, List.map_append, List.foldl_append]
  simp only [List.map_cons, List.map_nil, List.foldl_cons, List.foldl_nil]
  generalize (ini.map (fun d => (d.pos, d.char))).foldl fp.step ⟨[], 0, false⟩ = st
  unfold FnPattern.step
  dsimp only
  rw [if_pos hf]
  simp only [Bool.false_eq_true, if_false]
  rw [getLast?_snoc, hl, hend]

/-! ## The covering-span builder -/

theorem buildLoop_eq :
    ∀ (rest : List (Int × Int)) (m : Int × Int) (subs : List OffsetsMatch),
      Ascending (m :: rest) →
      buildLoop (m :: rest) subs m.1
        = (subs ++ interleave m.1 (m :: rest), lastEnd m.1 (m :: rest)) := by
  intro rest
  induction rest with
  | nil =>
    intro m subs _
    simp [buildLoop, interleave, lastEnd]
  | cons n rest ih =>
    intro m subs hs
    have hmn : m.2 ≤ n.1 := (List.chain'_cons.1 hs).1
    have hs2 : Ascending (n :: rest) := (List.chain'_cons.1 hs).2
    rw [buildLoop]
    have e1 : m.1 + (m.2 - m.1) = m.2 := by omega
    have e2 : m.2 + (n.1 - m.2) = n.1 := by omega
    by_cases hne : m.2 ≠ n.1
    · have hlt : m.2 < n.1 := by omega
      simp only [hne, e1, e2, if_true, ne_eq, not_false_eq_true]
      rw [ih n _ hs2]
      simp [interleave, lastEnd, hlt]
    · have heq : m.2 = n.1 := by omega
      simp only [hne, e1, if_false]
      rw [heq, ih n _ hs2]
      simp [interleave, lastEnd, heq]

theorem buildMatchesFromIndices_eq (inside : GoString) (m : Int × Int)
    (rest : List (Int × Int)) (h0 : 0 ≤ m.1) (hs : Ascending (m :: rest)) :
    buildMatchesFromIndices (m :: rest) inside = coveringSpans 0 (len inside) (m :: rest) := by
  unfold buildMatchesFromIndices coveringSpans
  dsimp only
  by_cases hpos : m.1 > 0
  · simp only [hpos, if_true]
    rw [buildLoop_eq rest m _ hs]
    have hlt : (0 : Int) < m.1 := hpos
    simp only [interleave, lastEnd, hlt, if_true, lt_irrefl, if_false]
    split_ifs <;> simp
  · have hz : m.1 = 0 := by omega
    simp only [hpos, if_false]
    have := buildLoop_eq rest m [] hs
    rw [hz] at this
    rw [this]
    simp only [interleave, lastEnd, hz, lt_irrefl, if_false]
    split_ifs <;> simp

theorem rangesFrom_of_ascending :
    ∀ (ms : List (Int × Int)) (a : Int), Ascending ms → (∀ m ∈ ms, m.1 ≤ m.2) →
      (∀ m, ms.head? = some m → a ≤ m.1) → RangesFrom a ms := by
  intro ms
  induction ms with
  | nil => intro a _ _ _; trivial
  | cons m rest ih =>
    intro a hs hv hh
    refine ⟨hh m rfl, hv m (List.mem_cons_self _ _), ?_⟩
    refine ih m.2 (List.Chain'.tail hs) (fun n hn => hv n (List.mem_cons_of_mem _ hn)) ?_
    intro n hn
    cases rest with
    | nil => simp at hn
    | cons k ks =>
      simp only [List.head?_cons, Option.some.injEq] at hn
      subst hn
      exact (List.chain'_cons.1 hs).1

theorem RangesFrom.ascending : ∀ {ms : List (Int × Int)} {a : Int},
    RangesFrom a ms → Ascending ms := by
  intro ms
  induction ms with
  | nil => intro a _; exact List.chain'_nil
  | cons m rest ih =>
    intro a h
    cases rest with
    | nil => exact List.chain'_singleton _
    | cons k ks => exact List.chain'_cons.2 ⟨h.2.2.1, ih h.2.2⟩

theorem RangesFrom.le_lastEnd : ∀ {ms : List (Int × Int)} {a : Int},
    RangesFrom a ms → a ≤ lastEnd a ms := by
  intro ms
  induction ms with
  | nil => intro a _; simp [lastEnd]
  | cons m rest ih =>
    intro a h
    have := ih h.2.2
    simp only [lastEnd]
    have h1 := h.1
    have h2 := h.2.1
    omega

theorem lastEnd_le {N : Int} : ∀ (ms : List (Int × Int)) (a : Int),
    a ≤ N → (∀ m ∈ ms, m.2 ≤ N) → lastEnd a ms ≤ N := by
  intro ms
  induction ms with
  | nil => intro a h _; simpa [lastEnd] using h
  | cons m rest ih =>
    intro a _ hv
    simp only [lastEnd]
    exact ih m.2 (hv m (List.mem_cons_self _ _)) (fun n hn => hv n (List.mem_cons_of_mem _ hn))

theorem interleave_tiles : ∀ (ms : List (Int × Int)) (a : Int), RangesFrom a ms →
    Tiles a (lastEnd a ms) (interleave a ms) := by
  intro ms
  induction ms with
  | nil => intro a _; simp [interleave, lastEnd, Tiles]
  | cons m rest ih =>
    intro a h
    obtain ⟨h1, h2, h3⟩ := h
    have hm : Tiles m.1 (lastEnd m.2 rest) (⟨m, true⟩ :: interleave m.2 rest) :=
      ⟨rfl, h2, ih m.2 h3⟩
    simp only [interleave, lastEnd]
    by_cases hlt : a < m.1
    · simp only [hlt, if_true]
      exact (Tiles.single false hlt.le).append hm
    · have : a = m.1 := by omega
      simp only [hlt, if_false, List.nil_append]
      rw [this]
      exact hm

theorem coveringSpans_tiles {ms : List (Int × Int)} {a N : Int} (h : RangesFrom a ms)
    (hN : lastEnd a ms ≤ N) : Tiles a N (coveringSpans a N ms) := by
  unfold coveringSpans
  by_cases hlt : lastEnd a ms < N
  · simp only [hlt, if_true]
    exact (interleave_tiles ms a h).snoc false hN
  · have : lastEnd a ms = N := by omega
    simp only [hlt, if_false, List.append_nil]
    have := interleave_tiles ms a h
    rwa [‹lastEnd a ms = N›] at this

theorem interleave_matched : ∀ (ms : List (Int × Int)) (a : Int),
    matchedRanges (interleave a ms) = ms := by
  intro ms
  induction ms with
  | nil => intro a; rfl
  | cons m rest ih =>
    intro a
    have := ih m.2
    unfold matchedRanges at *
    simp only [interleave]
    split_ifs <;> simp [this]

theorem coveringSpans_matched (ms : List (Int × Int)) (a N : Int) :
    matchedRanges (coveringSpans a N ms) = ms := by
  have := interleave_matched ms a
  unfold matchedRanges coveringSpans at *
  split_ifs <;> simp [this]

theorem unmatchedRanges_append (xs ys : List OffsetsMatch) :
    unmatchedRanges (xs ++ ys) = unmatchedRanges xs ++ unmatchedRanges ys := by
  simp [unmatchedRanges]

theorem coveringSpans_unmatched : ∀ (ms : List (Int × Int)) (a N : Int),
    unmatchedRanges (coveringSpans a N ms)
      = (gapsOf a N ms).filter (fun g => decide (g.1 < g.2)) := by
  intro ms
  induction ms with
  | nil =>
    intro a N
    unfold unmatchedRanges coveringSpans
    simp only [interleave, lastEnd, gapsOf, List.nil_append]
    by_cases h : a < N <;> simp [h]
  | cons m rest ih =>
    intro a N
    have := ih m.2 N
    unfold coveringSpans at *
    simp only [interleave, lastEnd, gapsOf, List.append_assoc, List.cons_append]
    rw [unmatchedRanges_append]
    have e : unmatchedRanges ((⟨m, true⟩ : OffsetsMatch) :: (interleave m.2 rest ++
        if lastEnd m.2 rest < N then [⟨(lastEnd m.2 rest, N), false⟩] else []))
        = unmatchedRanges (interleave m.2 rest ++
        if lastEnd m.2 rest < N then [⟨(lastEnd m.2 rest, N), false⟩] else []) := by
      simp [unmatchedRanges]
    rw [e, this]
    by_cases h : a < m.1 <;> simp [h, unmatchedRanges]

/-! ## Offset translation and the assembly loop of `findMatchesRegexp2` -/

/-- The widths of a list of decoded characters. -/
theorem widths_take_le (ds : List Decoded) (hw : ∀ d ∈ ds, 1 ≤ d.width) :
    ∀ (i j : Nat), i ≤ j → j ≤ ds.length →
      ((ds.take i).map (fun d => (d.width : Int))).sum + ((j - i : Nat) : Int)
        ≤ ((ds.take j).map (fun d => (d.width : Int))).sum := by
  induction ds with
  | nil =>
    intro i j hij hj
    have : j = 0 := by simpa using hj
    subst this
    have : i = 0 := by omega
    subst this
    simp
  | cons d ds ih =>
    intro i j hij hj
    have hd := hw d (List.mem_cons_self _ _)
    have ih := ih (fun e he => hw e (List.mem_cons_of_mem _ he))
    cases j with
    | zero =>
      have : i = 0 := by omega
      subst this
      simp
    | succ j =>
      cases i with
      | zero =>
        have := ih 0 j (Nat.zero_le _) (by simpa using hj)
        simp only [List.take_zero, List.map_nil, List.sum_nil, List.take_succ_cons,
          List.map_cons, List.sum_cons] at this ⊢
        omega
      | succ i =>
        have := ih i j (by omega) (by simpa using hj)
        simp only [List.take_succ_cons, List.map_cons, List.sum_cons] at this ⊢
        omega

theorem Consec.width_pos : ∀ {ds : List Decoded} {a b : Int}, Consec a b ds →
    ∀ d ∈ ds, 1 ≤ d.width := by
  intro ds
  induction ds with
  | nil => intro a b _ d hd; simp at hd
  | cons e es ih =>
    intro a b h d hd
    rcases List.mem_cons.1 hd with rfl | hd
    · exact h.2.1
    · exact ih h.2.2 d hd

theorem Consec.total : ∀ {ds : List Decoded} {a b : Int}, Consec a b ds →
    b = a + (ds.map (fun d => (d.width : Int))).sum := by
  intro ds
  induction ds with
  | nil => intro a b h; simp only [Consec] at h; simp [h]
  | cons e es ih =>
    intro a b h
    have := ih h.2.2
    simp only [List.map_cons, List.sum_cons]
    omega

theorem Consec.pos_eq : ∀ {ds : List Decoded} {a b : Int}, Consec a b ds →
    ∀ (i : Nat) (h : i < ds.length),
      (ds.get ⟨i, h⟩).pos = a + ((ds.take i).map (fun d => (d.width : Int))).sum := by
  intro ds
  induction ds with
  | nil => intro a b _ i h; simp at h
  | cons e es ih =>
    intro a b hc i h
    cases i with
    | zero => simp [hc.1]
    | succ i =>
      have := ih hc.2.2 i (by simpa using h)
      simp only [List.get_eq_getElem, List.getElem_cons_succ, List.take_succ_cons,
        List.map_cons, List.sum_cons] at this ⊢
      rw [this]
      omega

theorem charOffset_zero (s : GoString) : charOffset s 0 = 0 := by
  simp [charOffset]

theorem charOffset_count (s : GoString) : charOffset s (decodeString s).length = len s := by
  have := (decodeString_consec s).total
  simp only [charOffset, List.take_length]
  omega

theorem charOffset_le {s : GoString} {i j : Nat} (hij : i ≤ j)
    (hj : j ≤ (decodeString s).length) :
    charOffset s i + ((j - i : Nat) : Int) ≤ charOffset s j :=
  widths_take_le _ (decodeString_consec s).width_pos i j hij hj

theorem charOffset_mono {s : GoString} {i j : Nat} (hij : i ≤ j)
    (hj : j ≤ (decodeString s).length) : charOffset s i ≤ charOffset s j := by
  have := charOffset_le hij hj
  omega

theorem charOffset_nonneg (s : GoString) {i : Nat} (hi : i ≤ (decodeString s).length) :
    0 ≤ charOffset s i := by
  have := charOffset_mono (Nat.zero_le i) hi
  rwa [charOffset_zero] at this

theorem charOffset_le_len (s : GoString) {i : Nat} (hi : i ≤ (decodeString s).length) :
    charOffset s i ≤ len s := by
  have := charOffset_mono hi (le_refl _)
  rwa [charOffset_count] at this

theorem decodeFrom_ascii (s : GoString) (h : asciiOnly s = true) :
    ∀ (pos : Int), ∀ d ∈ decodeFrom 0 pos s, d.width = 1 := by
  induction s with
  | nil => intro pos d hd; simp [decodeFrom] at hd
  | cons b rest ih =>
    intro pos d hd
    simp only [asciiOnly, List.all_cons, Bool.and_eq_true, decide_eq_true_eq] at h
    have hb : decodeRune b rest = ((b.val : Int), 1) := by
      unfold decodeRune
      rw [if_pos h.1]
    simp only [decodeFrom, hb, List.mem_cons] at hd
    rcases hd with rfl | hd
    · rfl
    · exact ih (by simpa [asciiOnly] using h.2) _ d hd

theorem sum_take_ones (ds : List Decoded) (h : ∀ d ∈ ds, d.width = 1) :
    ∀ (i : Nat), i ≤ ds.length →
      ((ds.take i).map (fun d => (d.width : Int))).sum = (i : Int) := by
  induction ds with
  | nil =>
    intro i hi
    have : i = 0 := by simpa using hi
    subst this
    simp
  | cons d ds ih =>
    intro i hi
    cases i with
    | zero => simp
    | succ i =>
      have := ih (fun e he => h e (List.mem_cons_of_mem _ he)) i (by simpa using hi)
      have hd := h d (List.mem_cons_self _ _)
      simp only [List.take_succ_cons, List.map_cons, List.sum_cons, hd]
      rw [this]
      push_cast
      omega

theorem ascii_count {s : GoString} (h : asciiOnly s = true) :
    ((decodeString s).length : Int) = len s := by
  have h1 := sum_take_ones (decodeString s) (decodeFrom_ascii s h 0) _ (le_refl _)
  have h2 := charOffset_count s
  simp only [charOffset] at h2
  omega

theorem ascii_charOffset {s : GoString} (h : asciiOnly s = true) {i : Nat}
    (hi : i ≤ (decodeString s).length) : charOffset s i = (i : Int) :=
  sum_take_ones (decodeString s) (decodeFrom_ascii s h 0) i hi

theorem runeToByteTable_length {s : GoString} (h : asciiOnly s = false) :
    (runeToByteTable s).length = (decodeString s).length + 1 := by
  simp [runeToByteTable, h, rangeString]

theorem runeToByteTable_get {s : GoString} (h : asciiOnly s = false) (i : Nat)
    (hi : i < (runeToByteTable s).length) :
    (runeToByteTable s).get ⟨i, hi⟩ = charOffset s i := by
  have hlen := runeToByteTable_length h
  have hi2 : i ≤ (decodeString s).length := by omega
  have key : (runeToByteTable s)[i]? = some (charOffset s i) := by
    simp only [runeToByteTable, h, Bool.false_eq_true, if_false, rangeString, List.map_map]
    rcases Nat.lt_or_ge i (decodeString s).length with hlt | hge
    · rw [List.getElem?_append_left (by simpa using hlt)]
      have := (decodeString_consec s).pos_eq i hlt
      simp only [List.getElem?_map, List.getElem?_eq_getElem hlt, Option.map_some',
        Function.comp_apply, Option.some.injEq]
      simp only [List.get_eq_getElem] at this
      rw [this, charOffset]
      omega
    · have : i = (decodeString s).length := by omega
      subst this
      rw [List.getElem?_append_right (by simp)]
      simp [charOffset_count]
  rw [List.get_eq_getElem]
  have := List.getElem?_eq_getElem hi
  rw [this] at key
  exact Option.some.inj key

/-- Inside `[0, RuneCountInString(s)]` the closure `toByte` returns the byte
offset of the character, on the ASCII path and on the table path. -/
theorem toByte_eq (s : GoString) {i : Int} (h0 : 0 ≤ i) (hi : i ≤ RuneCountInString s) :
    toByte s i = charOffset s i.toNat := by
  have hin : i.toNat ≤ (decodeString s).length := by
    simp only [RuneCountInString] at hi
    omega
  unfold toByte
  rw [dif_neg (by omega)]
  rcases Bool.eq_false_or_eq_true (asciiOnly s) with ha | ha
  · rw [if_pos ha]
    have hc := ascii_count ha
    simp only [RuneCountInString] at hi
    rw [if_neg (by omega), ascii_charOffset ha hin]
    omega
  · rw [if_neg (by simp [ha])]
    have hlen := runeToByteTable_length ha
    have hlt : ¬ (i ≥ ((runeToByteTable s).length : Int)) := by
      simp only [RuneCountInString] at hi
      rw [hlen]
      push_cast
      omega
    rw [dif_neg hlt]
    exact runeToByteTable_get ha _ _

theorem regexp2_fold (inside : GoString) :
    ∀ (ms : List (Int × Int)) (acc : List OffsetsMatch) (curr : Int),
      ms.foldl (regexp2Step inside) (acc, curr)
        = (acc ++ interleave curr (ms.map (fun m => (toByte inside m.1, toByte inside m.2))),
           lastEnd curr (ms.map (fun m => (toByte inside m.1, toByte inside m.2)))) := by
  intro ms
  induction ms with
  | nil => intro acc curr; simp [interleave, lastEnd]
  | cons m rest ih =>
    intro acc curr
    have e : regexp2Step inside (acc, curr) m
        = ((if toByte inside m.1 > curr then acc ++ [⟨(curr, toByte inside m.1), false⟩]
            else acc) ++ [⟨(toByte inside m.1, toByte inside m.2), true⟩],
          toByte inside m.2) := rfl
    simp only [List.foldl_cons, List.map_cons, interleave, lastEnd]
    rw [e, ih]
    by_cases h : curr < toByte inside m.1
    · simp [h]
    · simp [h]

/-- The inline assembly of `findMatchesRegexp2` is the interleaving of the
translated ranges with their non-empty gaps. -/
theorem findMatchesRegexp2_eq (re : Regexp2) (inside : GoString) (h : re inside ≠ []) :
    findMatchesRegexp2 re inside
      = coveringSpans 0 (len inside)
          ((re inside).map (fun m => (toByte inside m.1, toByte inside m.2))) := by
  unfold findMatchesRegexp2 coveringSpans
  dsimp only
  rw [if_neg (by simpa using h), regexp2_fold]
  split_ifs <;> simp

theorem toByte_map_eq (s : GoString) (ms : List (Int × Int))
    (hv : ∀ m ∈ ms, 0 ≤ m.1 ∧ m.1 ≤ m.2 ∧ m.2 ≤ RuneCountInString s) :
    ms.map (fun m => (toByte s m.1, toByte s m.2)) = byteRanges s ms := by
  unfold byteRanges
  apply List.map_congr_left
  intro m hm
  obtain ⟨h1, h2, h3⟩ := hv m hm
  rw [toByte_eq s h1 (by omega), toByte_eq s (by omega) h3]

theorem byteRanges_rangesFrom (s : GoString) :
    ∀ (ms : List (Int × Int)) (c : Nat), c ≤ (decodeString s).length →
      (∀ m ∈ ms, 0 ≤ m.1 ∧ m.1 ≤ m.2 ∧ m.2 ≤ RuneCountInString s) →
      RangesFrom (c : Int) ms → RangesFrom (charOffset s c) (byteRanges s ms) := by
  intro ms
  induction ms with
  | nil => intro c _ _ _; trivial
  | cons m rest ih =>
    intro c hc hv hr
    obtain ⟨h1, h2, h3⟩ := hv m (List.mem_cons_self _ _)
    obtain ⟨r1, r2, r3⟩ := hr
    simp only [RuneCountInString] at h3
    have e : ((m.2.toNat : Nat) : Int) = m.2 := Int.toNat_of_nonneg (by omega)
    refine ⟨charOffset_mono (by omega) (by omega), charOffset_mono (by omega) (by omega), ?_⟩
    refine ih m.2.toNat (by omega) (fun n hn => hv n (List.mem_cons_of_mem _ hn)) ?_
    rw [e]
    exact r3

theorem byteRanges_le_len (s : GoString) (ms : List (Int × Int))
    (hv : ∀ m ∈ ms, 0 ≤ m.1 ∧ m.1 ≤ m.2 ∧ m.2 ≤ RuneCountInString s) :
    ∀ n ∈ byteRanges s ms, n.2 ≤ len s := by
  intro n hn
  simp only [byteRanges, List.mem_map] at hn
  obtain ⟨m, hm, rfl⟩ := hn
  obtain ⟨h1, h2, h3⟩ := hv m hm
  simp only [RuneCountInString] at h3
  exact charOffset_le_len s (by omega)

theorem len_nonneg (s : GoString) : 0 ≤ len s := by simp [len]

theorem invert_single (a b : Int) (m : Bool) :
    invert [⟨(a, b), m⟩] = [⟨(a, b), ! m⟩] := rfl

theorem NewStringPattern_empty_input (s : GoString) :
    (NewStringPattern s).FindMatches [] = [⟨(0, 0), false⟩] := by
  unfold StringPattern.FindMatches NewStringPattern
  by_cases h : s = []
  · simp [h, len]
  · simp [h, findMatches, quoteMetaRegexp, literalScan, buildMatchesFromIndices, len]

/-! ## Order of the start offsets -/

theorem Tiles.startsNonDecreasing : ∀ {xs : List OffsetsMatch} {a b : Int},
    Tiles a b xs → StartsNonDecreasing xs := by
  intro xs
  induction xs with
  | nil => intro a b _; exact List.chain'_nil
  | cons x xs ih =>
    intro a b h
    cases xs with
    | nil => exact List.chain'_singleton _
    | cons y ys =>
      refine List.chain'_cons.2 ⟨?_, ih h.2.2⟩
      have := h.2.2.1
      have := h.2.1
      omega

theorem Tiles.startsIncreasing : ∀ {xs : List OffsetsMatch} {a b : Int},
    Tiles a b xs → (∀ x ∈ xs, x.start < x.stop) → StartsIncreasing xs := by
  intro xs
  induction xs with
  | nil => intro a b _ _; exact List.chain'_nil
  | cons x xs ih =>
    intro a b h hne
    cases xs with
    | nil => exact List.chain'_singleton _
    | cons y ys =>
      refine List.chain'_cons.2
        ⟨?_, ih h.2.2 (fun z hz => hne z (List.mem_cons_of_mem _ hz))⟩
      have := h.2.2.1
      have := hne x (List.mem_cons_self _ _)
      omega

theorem interleave_nonempty : ∀ (ms : List (Int × Int)) (a : Int),
    (∀ m ∈ ms, m.1 < m.2) → ∀ x ∈ interleave a ms, x.start < x.stop := by
  intro ms
  induction ms with
  | nil => intro a _ x hx; simp [interleave] at hx
  | cons m rest ih =>
    intro a hm x hx
    simp only [interleave, List.mem_append, List.mem_cons] at hx
    rcases hx with hx | rfl | hx
    · by_cases h : a < m.1
      · simp only [h, if_true, List.mem_singleton] at hx
        subst hx
        exact h
      · simp [h] at hx
    · exact hm m (List.mem_cons_self _ _)
    · exact ih m.2 (fun n hn => hm n (List.mem_cons_of_mem _ hn)) x hx

theorem coveringSpans_nonempty (ms : List (Int × Int)) (a N : Int)
    (hm : ∀ m ∈ ms, m.1 < m.2) : ∀ x ∈ coveringSpans a N ms, x.start < x.stop := by
  intro x hx
  simp only [coveringSpans, List.mem_append] at hx
  rcases hx with hx | hx
  · exact interleave_nonempty ms a hm x hx
  · by_cases h : lastEnd a ms < N
    · simp only [h, if_true, List.mem_singleton] at hx
      subst hx
      exact h
    · simp [h] at hx

theorem byteRanges_nonempty (s : GoString) (ms : List (Int × Int))
    (hv : ∀ m ∈ ms, 0 ≤ m.1 ∧ m.1 ≤ m.2 ∧ m.2 ≤ RuneCountInString s)
    (hm : ∀ m ∈ ms, m.1 < m.2) : ∀ n ∈ byteRanges s ms, n.1 < n.2 := by
  intro n hn
  simp only [byteRanges, List.mem_map] at hn
  obtain ⟨m, hmem, rfl⟩ := hn
  obtain ⟨h1, h2, h3⟩ := hv m hmem
  have hlt := hm m hmem
  simp only [RuneCountInString] at h3
  have := charOffset_le (s := s) (i := m.1.toNat) (j := m.2.toNat) (by omega) (by omega)
  show charOffset s m.1.toNat < charOffset s m.2.toNat
  omega

theorem buildMatchesFromIndices_order (inside : GoString) (ms : List (Int × Int))
    (hv : ∀ m ∈ ms, 0 ≤ m.1 ∧ m.1 ≤ m.2 ∧ m.2 ≤ len inside) (hs : Ascending ms) :
    StartsNonDecreasing (buildMatchesFromIndices ms inside) ∧
    ((∀ m ∈ ms, m.1 < m.2) → StartsIncreasing (buildMatchesFromIndices ms inside)) := by
  cases ms with
  | nil => exact ⟨List.chain'_singleton _, fun _ => List.chain'_singleton _⟩
  | cons m rest =>
    have hm := hv m (List.mem_cons_self _ _)
    rw [buildMatchesFromIndices_eq inside m rest hm.1 hs]
    have hr : RangesFrom 0 (m :: rest) :=
      rangesFrom_of_ascending _ 0 hs (fun n hn => (hv n hn).2.1)
        (fun n hn => by cases hn; exact hm.1)
    have hl : lastEnd 0 (m :: rest) ≤ len inside :=
      lastEnd_le _ 0 (len_nonneg inside) (fun n hn => (hv n hn).2.2)
    have ht := coveringSpans_tiles hr hl
    exact ⟨ht.startsNonDecreasing,
      fun hne => ht.startsIncreasing (coveringSpans_nonempty _ _ _ hne)⟩

theorem findMatchesRegexp2_order (re : Regexp2) (s : GoString)
    (hv : ∀ m ∈ re s, 0 ≤ m.1 ∧ m.1 ≤ m.2 ∧ m.2 ≤ RuneCountInString s)
    (hs : Ascending (re s)) :
    StartsNonDecreasing (findMatchesRegexp2 re s) ∧
    ((∀ m ∈ re s, m.1 < m.2) → StartsIncreasing (findMatchesRegexp2 re s)) := by
  by_cases hnil : re s = []
  · have : findMatchesRegexp2 re s = [⟨(0, len s), false⟩] := by
      simp [findMatchesRegexp2, hnil]
    rw [this]
    exact ⟨List.chain'_singleton _, fun _ => List.chain'_singleton _⟩
  · rw [findMatchesRegexp2_eq re s hnil, toByte_map_eq s _ hv]
    have hr0 : RangesFrom ((0 : Nat) : Int) (re s) :=
      rangesFrom_of_ascending _ _ hs (fun m hm => (hv m hm).2.1)
        (fun m hm => (hv m (List.mem_of_mem_head? hm)).1)
    have hr := byteRanges_rangesFrom s (re s) 0 (Nat.zero_le _) hv hr0
    rw [charOffset_zero] at hr
    have hl := lastEnd_le (byteRanges s (re s)) 0 (len_nonneg s) (byteRanges_le_len s _ hv)
    have ht := coveringSpans_tiles hr hl
    exact ⟨ht.startsNonDecreasing, fun hne =>
      ht.startsIncreasing (coveringSpans_nonempty _ _ _ (byteRanges_nonempty s _ hv hne))⟩

theorem FnPattern.scan_order (fp : FnPattern) (s : GoString) (hv : ValidString s = true) :
    StartsIncreasing (fp.FindMatches s) := by
  by_cases hne : s = []
  · subst hne
    exact List.chain'_singleton _
  · have h := FnPattern.scan_result fp hne hv
    exact h.1.startsIncreasing h.2.2.1

/-! ## Adjacent matching characters -/

theorem FnPattern.fold_subs (fp : FnPattern) :
    ∀ (its : List (Int × Int)) (st : ScanState),
      ∃ tail, (its.foldl fp.step st).subs = st.subs ++ tail := by
  intro its
  induction its with
  | nil => intro st; exact ⟨[], by simp⟩
  | cons it its ih =>
    intro st
    obtain ⟨tail, ht⟩ := ih (fp.step st it)
    simp only [List.foldl_cons]
    rw [ht]
    unfold FnPattern.step
    dsimp only
    by_cases hf : fp.fn it.2 = true
    · rw [if_pos hf]
      by_cases hp : st.hasPrevious = true
      · rw [if_pos hp]
        exact ⟨⟨(st.prevStart, it.1), false⟩ :: ⟨(it.1, it.1 + RuneLen it.2), true⟩ :: tail,
          by simp⟩
      · rw [if_neg hp]
        exact ⟨⟨(it.1, it.1 + RuneLen it.2), true⟩ :: tail, by simp⟩
    · rw [if_neg hf]
      exact ⟨tail, rfl⟩

theorem Consec.adjacent {d e : Decoded} {post : List Decoded} :
    ∀ (pre : List Decoded) {a b : Int}, Consec a b (pre ++ d :: e :: post) →
      d.pos + d.width = e.pos := by
  intro pre
  induction pre with
  | nil =>
    intro a b h
    obtain ⟨h1, _, h3, _⟩ := h
    omega
  | cons x xs ih =>
    intro a b h
    exact ih h.2.2

/-- When two neighbouring characters of a valid string both satisfy the
predicate, their matched spans are neighbours in the result. -/
theorem FnPattern.scan_adjacent (fp : FnPattern) {s : GoString} (hv : ValidString s = true)
    {pre post : List Decoded} {d e : Decoded} (hd : decodeString s = pre ++ d :: e :: post)
    (hfd : fp.fn d.char = true) (hfe : fp.fn e.char = true) :
    [(⟨(d.pos, e.pos), true⟩ : OffsetsMatch), ⟨(e.pos, e.pos + e.width), true⟩]
      <:+: fp.FindMatches s := by
  have hne : s ≠ [] := by
    intro h
    rw [h] at hd
    simp [decodeString, decodeFrom] at hd
  have hlen := len_ne_zero hne
  have hc := decodeString_consec s
  rw [hd] at hc
  have hadj := Consec.adjacent pre hc
  have hld : RuneLen d.char = (d.width : Int) := valid_runeLen hv d (by rw [hd]; simp)
  have hle : RuneLen e.char = (e.width : Int) := valid_runeLen hv e (by rw [hd]; simp)
  unfold FnPattern.FindMatches
  rw [if_neg hlen]
  unfold rangeString
  dsimp only
  rw [hd, List.map_append, List.foldl_append]
  simp only [List.map_cons, List.foldl_cons]
  generalize (pre.map (fun d => (d.pos, d.char))).foldl fp.step ⟨[], 0, false⟩ = st1
  have e1 : ∃ X, fp.step st1 (d.pos, d.char)
      = ⟨X ++ [⟨(d.pos, e.pos), true⟩], e.pos, false⟩ := by
    unfold FnPattern.step
    dsimp only
    rw [if_pos hfd, hld, hadj]
    exact ⟨_, rfl⟩
  obtain ⟨X, hX⟩ := e1
  rw [hX]
  have e2 : fp.step ⟨X ++ [⟨(d.pos, e.pos), true⟩], e.pos, false⟩ (e.pos, e.char)
      = ⟨X ++ [⟨(d.pos, e.pos), true⟩] ++ [⟨(e.pos, e.pos + e.width), true⟩],
          e.pos + e.width, false⟩ := by
    unfold FnPattern.step
    dsimp only
    rw [if_pos hfe, hle]
    simp
  rw [e2]
  obtain ⟨tail, ht⟩ := FnPattern.fold_subs fp (post.map (fun d => (d.pos, d.char)))
    ⟨X ++ [⟨(d.pos, e.pos), true⟩] ++ [⟨(e.pos, e.pos + e.width), true⟩],
      e.pos + e.width, false⟩
  generalize (post.map (fun d => (d.pos, d.char))).foldl fp.step
    ⟨X ++ [⟨(d.pos, e.pos), true⟩] ++ [⟨(e.pos, e.pos + e.width), true⟩],
      e.pos + e.width, false⟩ = st2 at ht ⊢
  by_cases hp : st2.hasPrevious = true
  · rw [if_pos hp, ht]
    exact ⟨X, tail ++ [⟨(st2.prevStart, len s), false⟩], by simp⟩
  · rw [if_neg hp, ht]
    exact ⟨X, tail, by simp⟩

/-! ## The literal search -/

theorem RangesFrom.mono : ∀ {ms : List (Int × Int)} {a c : Int}, c ≤ a →
    RangesFrom a ms → RangesFrom c ms := by
  intro ms
  cases ms with
  | nil => intro a c _ _; trivial
  | cons m rest =>
    intro a c hca h
    exact ⟨le_trans hca h.1, h.2.1, h.2.2⟩

theorem RangesFrom.mem : ∀ {ms : List (Int × Int)} {a : Int}, RangesFrom a ms →
    ∀ m ∈ ms, a ≤ m.1 ∧ m.1 ≤ m.2 := by
  intro ms
  induction ms with
  | nil => intro a _ m hm; simp at hm
  | cons n rest ih =>
    intro a h m hm
    rcases List.mem_cons.1 hm with rfl | hm
    · exact ⟨h.1, h.2.1⟩
    · have := ih h.2.2 m hm
      have h1 := h.1
      have h2 := h.2.1
      exact ⟨by omega, this.2⟩

theorem takeWidth_bounds {ds : List Decoded} {a b : Int} (hc : Consec a b ds) (hne : ds ≠ [])
    {m : Nat} (hm : 1 ≤ m) : 1 ≤ takeWidth m ds ∧ takeWidth m ds ≤ b - a := by
  have hw := hc.width_pos
  have htot := hc.total
  have hlen : 1 ≤ ds.length := by
    cases ds with
    | nil => exact absurd rfl hne
    | cons d ds => simp
  have hall := widths_take_le ds hw
  unfold takeWidth
  rcases Nat.lt_or_ge m ds.length with hlt | hge
  · have h1 := hall 0 m (Nat.zero_le _) (by omega)
    have h2 := hall m ds.length (by omega) (le_refl _)
    simp only [List.take_zero, List.map_nil, List.sum_nil, List.take_length] at h1 h2
    constructor <;> omega
  · rw [List.take_of_length_le hge]
    have h1 := hall 0 ds.length (Nat.zero_le _) (le_refl _)
    simp only [List.take_zero, List.map_nil, List.sum_nil, List.take_length] at h1
    constructor <;> omega

/-- The ranges found by the literal search lie inside the input, are
non-empty, ascending and do not overlap. -/
theorem literalScan_ranges (pat : List Int) (hpat : pat ≠ []) (s : GoString) :
    ∀ (skip : Nat) (pos : Int), skip ≤ s.length →
      RangesFrom (pos + skip) (literalScan pat skip pos s) ∧
      (∀ m ∈ literalScan pat skip pos s, m.1 < m.2 ∧ m.2 ≤ pos + s.length) := by
  have hL : 1 ≤ pat.length := by
    cases pat with
    | nil => exact absurd rfl hpat
    | cons b bs => simp
  induction s with
  | nil => intro skip pos _; simp [literalScan, RangesFrom]
  | cons b rest ih =>
    intro skip pos hskip
    have e2 : pos + (((b :: rest).length : Nat) : Int) = pos + 1 + (rest.length : Int) := by
      simp only [List.length_cons]; omega
    cases skip with
    | succ k =>
      have := ih k (pos + 1) (by simpa using hskip)
      have e1 : pos + ((k + 1 : Nat) : Int) = pos + 1 + (k : Int) := by omega
      simp only [literalScan]
      rw [e1, e2]
      exact this
    | zero =>
      simp only [literalScan]
      have hc := decodeFrom_consec (b :: rest) 0 pos (Nat.zero_le _)
      have hne : decodeFrom 0 pos (b :: rest) ≠ [] := by simp [decodeFrom]
      obtain ⟨hn1, hn2⟩ := takeWidth_bounds hc hne hL
      simp only [List.length_cons] at hn2
      by_cases hp : pat.isPrefixOf ((decodeFrom 0 pos (b :: rest)).map (fun d => d.char)) = true
      · have := ih ((takeWidth pat.length (decodeFrom 0 pos (b :: rest))).toNat - 1) (pos + 1)
          (by omega)
        have e3 : pos + 1
            + (((takeWidth pat.length (decodeFrom 0 pos (b :: rest))).toNat - 1 : Nat) : Int)
            = pos + takeWidth pat.length (decodeFrom 0 pos (b :: rest)) := by omega
        rw [e3] at this
        rw [if_pos hp, e2]
        refine ⟨⟨by simp, by simp only; omega, this.1⟩, ?_⟩
        intro m hm
        rcases List.mem_cons.1 hm with rfl | hm
        · constructor
          · simp only; omega
          · simp only; push_cast at hn2; omega
        · exact this.2 m hm
      · have hw := decodeRune_width b rest
        have := ih ((decodeRune b rest).2 - 1) (pos + 1) (by omega)
        rw [if_neg hp, e2]
        exact ⟨this.1.mono (by omega), this.2⟩

theorem invert_starts (R : Int → Int → Prop) (xs : List OffsetsMatch) :
    (invert xs).Chain' (fun x y => R x.start y.start)
      ↔ xs.Chain' (fun x y => R x.start y.start) := by
  unfold invert
  rw [List.chain'_map]
  rfl

theorem pattern_chars_ne_nil {lit : GoString} (h : lit ≠ []) :
    (decodeString lit).map (fun d => d.char) ≠ [] := by
  intro hnil
  exact decodeString_ne_nil h (List.map_eq_nil_iff.1 hnil)

theorem stringPattern_order (lit inside : GoString) :
    StartsIncreasing ((NewStringPattern lit).FindMatches inside) := by
  unfold StringPattern.FindMatches NewStringPattern
  by_cases h : lit = []
  · simp only [h, if_true]
    exact List.chain'_singleton _
  · simp only [h, if_false, findMatches, quoteMetaRegexp]
    have hr := literalScan_ranges _ (pattern_chars_ne_nil h) inside 0 0 (Nat.zero_le _)
    have hr1 : RangesFrom 0 (literalScan ((decodeString lit).map (fun d => d.char)) 0 0 inside) := by
      simpa using hr.1
    refine (buildMatchesFromIndices_order inside _ ?_ hr1.ascending).2
      (fun m hm => (hr.2 m hm).1)
    intro m hm
    have h1 := hr1.mem m hm
    have h2 := (hr.2 m hm).2
    simp only [len]
    omega

theorem regexpPattern_order (rp : RegexpPattern) (s : GoString)
    (hv : ∀ m ∈ rp.re s, 0 ≤ m.1 ∧ m.1 ≤ m.2 ∧ m.2 ≤ RuneCountInString s)
    (hs : Ascending (rp.re s)) :
    StartsNonDecreasing (rp.FindMatches s) ∧
    ((∀ m ∈ rp.re s, m.1 < m.2) → StartsIncreasing (rp.FindMatches s)) := by
  unfold RegexpPattern.FindMatches
  by_cases h : len s = 0
  · rw [if_pos h]
    exact ⟨List.chain'_singleton _, fun _ => List.chain'_singleton _⟩
  · rw [if_neg h]
    exact findMatchesRegexp2_order rp.re s hv hs

theorem StartsIncreasing.nonDecreasing {xs : List OffsetsMatch} (h : StartsIncreasing xs) :
    StartsNonDecreasing xs :=
  List.Chain'.imp (fun _ _ hab => le_of_lt hab) h

theorem pattern_order (p : Pattern) (s : GoString) (hr : p.Regular s) :
    StartsNonDecreasing (p.FindMatches s) ∧
    (p.NonEmptyMatches s → StartsIncreasing (p.FindMatches s)) := by
  induction p with
  | rune q =>
    have : StartsIncreasing (q.FindMatches s) := by
      rw [RunePattern.FindMatches_eq]
      exact FnPattern.scan_order _ s hr
    exact ⟨this.nonDecreasing, fun _ => this⟩
  | fn q =>
    have := FnPattern.scan_order q s hr
    exact ⟨this.nonDecreasing, fun _ => this⟩
  | string q =>
    simp only [Pattern.Regular] at hr
    have := stringPattern_order q.s s
    rw [← hr] at this
    exact ⟨this.nonDecreasing, fun _ => this⟩
  | regexp q => exact regexpPattern_order q s hr.1 hr.2
  | invert q ih =>
    have := ih hr
    simp only [Pattern.FindMatches, StartsNonDecreasing, StartsIncreasing, invert_starts]
    exact this

/-! ## Inline assembly against the builder, scratch buffers, added tokens -/

theorem ascii_toByte_map (s : GoString) (ha : asciiOnly s = true) (ms : List (Int × Int))
    (hv : ∀ m ∈ ms, 0 ≤ m.1 ∧ m.1 ≤ m.2 ∧ m.2 ≤ len s) :
    ms.map (fun m => (toByte s m.1, toByte s m.2)) = ms := by
  conv_rhs => rw [← List.map_id ms]
  apply List.map_congr_left
  intro m hm
  obtain ⟨h1, h2, h3⟩ := hv m hm
  have e : ∀ i : Int, 0 ≤ i → i ≤ len s → toByte s i = i := by
    intro i h0 hi
    unfold toByte
    rw [dif_neg (by omega), if_pos ha, if_neg (by omega)]
  rw [e m.1 h1 (by omega), e m.2 (by omega) h3]
  rfl

theorem buildToken_fields {I E : Type} (dflt : AddedToken E) (d : TokenConfig I) :
    buildToken dflt d = ⟨d.Content, d.SingleWord, d.Lstrip, d.Rstrip, d.Normalized, dflt.extra⟩ :=
  rfl

theorem withIds_fold {I E : Type} (dflt : AddedToken E) (toInt : I → Int) :
    ∀ (data : List (TokenConfig I)) (acc : List (AddedTokenWithId E)),
      data.foldl (fun result d => result ++ [⟨toInt d.Id, d.Special, buildToken dflt d⟩]) acc
        = acc ++ data.map (fun d => ⟨toInt d.Id, d.Special, buildToken dflt d⟩) := by
  intro data
  induction data with
  | nil => intro acc; simp
  | cons d rest ih => intro acc; simp [ih]

theorem addedTokens_fold {I E : Type} (dflt : AddedToken E) :
    ∀ (data : List (TokenConfig I)) (acc : List (AddedToken E) × List (AddedToken E)),
      data.foldl
        (fun acc d =>
          if d.Special then (acc.1 ++ [buildToken dflt d], acc.2)
          else (acc.1, acc.2 ++ [buildToken dflt d])) acc
        = (acc.1 ++ (data.filter (fun d => d.Special)).map (buildToken dflt),
           acc.2 ++ (data.filter (fun d => ! d.Special)).map (buildToken dflt)) := by
  intro data
  induction data with
  | nil => intro acc; simp
  | cons d rest ih =>
    intro acc
    simp only [List.foldl_cons]
    rw [ih]
    by_cases h : d.Special = true
    · simp [h]
    · simp [h]

/-! ## The offset translation on every index -/

theorem toByteChecked_eq (s : GoString) (i : Int) : toByteChecked s i = some (toByte s i) := by
  unfold toByteChecked toByte
  by_cases h0 : i < 0
  · rw [if_pos h0, dif_pos h0]
  · rw [if_neg h0, dif_neg h0]
    by_cases ha : asciiOnly s = true
    · rw [if_pos ha, if_pos ha]
      split_ifs <;> rfl
    · rw [if_neg ha, if_neg ha]
      by_cases h1 : i ≥ ((runeToByteTable s).length : Int)
      · rw [if_pos h1, dif_pos h1]
      · rw [if_neg h1, dif_neg h1, List.get_eq_getElem]
        exact List.getElem?_eq_getElem _

theorem toByte_neg (s : GoString) {i : Int} (h : i < 0) : toByte s i = 0 := by
  unfold toByte
  rw [dif_pos h]

theorem toByte_large (s : GoString) {i : Int} (h : RuneCountInString s ≤ i) :
    toByte s i = len s := by
  have hC : (0 : Int) ≤ RuneCountInString s := by simp [RuneCountInString]
  rcases eq_or_lt_of_le h with heq | hlt
  · rw [← heq, toByte_eq s hC (le_refl _)]
    simp only [RuneCountInString, Int.toNat_ofNat]
    exact charOffset_count s
  · simp only [RuneCountInString] at hlt hC
    unfold toByte
    rw [dif_neg (by omega)]
    rcases Bool.eq_false_or_eq_true (asciiOnly s) with ha | ha
    · have := ascii_count ha
      rw [if_pos ha, if_pos (by omega)]
    · rw [if_neg (by simp [ha]), dif_pos]
      rw [runeToByteTable_length ha]
      push_cast
      omega

theorem toByte_clamp (s : GoString) (i : Int) :
    toByte s i = charOffset s (min i.toNat (decodeString s).length) := by
  by_cases h0 : i < 0
  · rw [toByte_neg s h0]
    have : i.toNat = 0 := by omega
    rw [this, Nat.zero_min, charOffset_zero]
  · by_cases h1 : RuneCountInString s ≤ i
    · rw [toByte_large s h1]
      simp only [RuneCountInString] at h1
      rw [Nat.min_eq_right (by omega), charOffset_count]
    · rw [toByte_eq s (by omega) (by omega)]
      simp only [RuneCountInString] at h1
      rw [Nat.min_eq_left (by omega)]

theorem toByte_mono (s : GoString) {i j : Int} (h : i ≤ j) : toByte s i ≤ toByte s j := by
  rw [toByte_clamp, toByte_clamp]
  apply charOffset_mono
  · apply min_le_min_right
    exact Int.toNat_le_toNat h
  · exact Nat.min_le_right _ _

theorem toByte_range (s : GoString) (i : Int) : 0 ≤ toByte s i ∧ toByte s i ≤ len s := by
  rw [toByte_clamp]
  exact ⟨charOffset_nonneg s (Nat.min_le_right _ _), charOffset_le_len s (Nat.min_le_right _ _)⟩

theorem charOffset_pos (s : GoString) {i : Nat} {d : Decoded}
    (h : (decodeString s)[i]? = some d) : d.pos = charOffset s i := by
  obtain ⟨hlt, hd⟩ := List.getElem?_eq_some_iff.1 h
  have := (decodeString_consec s).pos_eq i hlt
  simp only [List.get_eq_getElem, hd] at this
  rw [this, charOffset]
  omega

theorem runeToByteTable_getElem? {s : GoString} (h : asciiOnly s = false) {i : Nat}
    (hi : i < (runeToByteTable s).length) :
    (runeToByteTable s)[i]? = some (charOffset s i) := by
  rw [List.getElem?_eq_getElem hi]
  have := runeToByteTable_get h i hi
  rw [List.get_eq_getElem] at this
  rw [this]

theorem runeToByteTable_shape {s : GoString} (h : asciiOnly s = false) :
    ((runeToByteTable s).length : Int) = RuneCountInString s + 1 ∧
    (runeToByteTable s).head? = some 0 ∧
    (runeToByteTable s).getLast? = some (len s) ∧
    (runeToByteTable s).Chain' (fun x y => x < y) := by
  have hlen := runeToByteTable_length h
  refine ⟨by simp [hlen, RuneCountInString], ?_, ?_, ?_⟩
  · rw [List.head?_eq_getElem?, runeToByteTable_getElem? h (by omega), charOffset_zero]
  · rw [List.getLast?_eq_getElem?, runeToByteTable_getElem? h (by omega), hlen]
    simp only [Nat.add_sub_cancel, charOffset_count]
  · rw [List.chain'_iff_get]
    intro i hi
    rw [runeToByteTable_get h, runeToByteTable_get h]
    have := charOffset_le (s := s) (i := i) (j := i + 1) (by omega) (by omega)
    simp only [Nat.add_sub_cancel_left] at this
    omega

/-! ## A multi-byte character in front of an ASCII string -/

/-- A decoding that consumed all of `b :: rest`, more than one byte, does not
depend on what follows. -/
theorem decodeRune_append (b : Fin 256) (rest s : GoString)
    (hw : (decodeRune b rest).2 = rest.length + 1) (h2 : 2 ≤ (decodeRune b rest).2) :
    decodeRune b (rest ++ s) = decodeRune b rest := by
  unfold decodeRune at hw h2 ⊢
  by_cases hb : b.val < RuneSelf
  · simp [hb] at h2
  simp only [hb, if_false] at hw h2 ⊢
  cases hl : leadInfo b.val with
  | none => simp [hl] at h2
  | some t =>
    obtain ⟨sz, lo, hi⟩ := t
    simp only [hl] at hw h2 ⊢
    cases rest with
    | nil => simp at h2
    | cons b1 rest1 =>
      simp only [List.cons_append] at hw h2 ⊢
      by_cases c1 : b1.val < lo ∨ hi < b1.val
      · simp [c1] at h2
      simp only [c1, if_false] at hw h2 ⊢
      by_cases c2 : sz ≤ 2
      · simp only [c2, if_true] at hw h2 ⊢
      simp only [c2, if_false] at hw h2 ⊢
      cases rest1 with
      | nil => simp at h2
      | cons b2 rest2 =>
        simp only [List.cons_append] at hw h2 ⊢
        by_cases c3 : (! isCont b2.val) = true
        · simp [c3] at h2
        simp only [c3, if_false] at hw h2 ⊢
        by_cases c4 : sz ≤ 3
        · simp only [c4, if_true] at hw h2 ⊢
        simp only [c4, if_false] at hw h2 ⊢
        cases rest2 with
        | nil => simp at h2
        | cons b3 rest3 =>
          simp only [List.cons_append] at hw h2 ⊢

theorem decodeFrom_skip (xs s : GoString) :
    ∀ (pos : Int), decodeFrom xs.length pos (xs ++ s) = decodeFrom 0 (pos + xs.length) s := by
  induction xs with
  | nil => intro pos; simp
  | cons x xs ih =>
    intro pos
    have := ih (pos + 1)
    simp only [List.length_cons, List.cons_append, decodeFrom]
    show decodeFrom xs.length (pos + 1) (xs ++ s) = _
    rw [this]
    congr 1
    push_cast
    omega

theorem decodeFrom_ascii_length (s : GoString) (h : asciiOnly s = true) :
    ∀ (pos : Int), (decodeFrom 0 pos s).length = s.length := by
  induction s with
  | nil => intro pos; simp [decodeFrom]
  | cons b rest ih =>
    intro pos
    simp only [asciiOnly, List.all_cons, Bool.and_eq_true, decide_eq_true_eq] at h
    have hb : decodeRune b rest = ((b.val : Int), 1) := by
      unfold decodeRune
      rw [if_pos h.1]
    simp only [decodeFrom, hb, List.length_cons]
    rw [ih (by simpa [asciiOnly] using h.2)]

/-- The scan of a string that starts with one multi-byte character `p`. -/
theorem decodeString_prefixed {p s : GoString} {c : Int}
    (hp : decodeString p = [⟨0, c, p.length⟩]) (h2 : 2 ≤ p.length) :
    decodeString (p ++ s) = ⟨0, c, p.length⟩ :: decodeFrom 0 p.length s := by
  cases p with
  | nil => simp at h2
  | cons b rest =>
    simp only [decodeString, decodeFrom, List.cons.injEq, Decoded.mk.injEq, true_and] at hp
    obtain ⟨⟨hc, hw⟩, _⟩ := hp
    simp only [List.length_cons] at hw h2
    have happ := decodeRune_append b rest s hw (by omega)
    show decodeFrom 0 0 (b :: (rest ++ s)) = _
    simp only [decodeFrom, happ, hc, hw, List.length_cons, Nat.add_sub_cancel]
    rw [decodeFrom_skip]
    congr 2
    push_cast
    omega

theorem asciiOnly_prefixed {p s : GoString} {c : Int}
    (hp : decodeString p = [⟨0, c, p.length⟩]) (h2 : 2 ≤ p.length) :
    asciiOnly (p ++ s) = false := by
  cases p with
  | nil => simp at h2
  | cons b rest =>
    simp only [decodeString, decodeFrom, List.cons.injEq, Decoded.mk.injEq, true_and] at hp
    obtain ⟨⟨_, hw⟩, _⟩ := hp
    have hb : ¬ b.val < RuneSelf := by
      intro hb
      unfold decodeRune at hw
      rw [if_pos hb] at hw
      simp only [List.length_cons] at hw h2
      omega
    simp [asciiOnly, hb]

/-- The byte offset of character `i + 1` of `p ++ s` is `len(p) + i` when `p` is
one multi-byte character and `s` is ASCII-only. -/
theorem charOffset_prefixed {p s : GoString} {c : Int}
    (hp : decodeString p = [⟨0, c, p.length⟩]) (h2 : 2 ≤ p.length)
    (ha : asciiOnly s = true) {i : Nat} (hi : i ≤ s.length) :
    charOffset (p ++ s) (i + 1) = len p + i := by
  unfold charOffset
  rw [decodeString_prefixed hp h2]
  simp only [List.take_succ_cons, List.map_cons, List.sum_cons]
  rw [sum_take_ones _ (decodeFrom_ascii s ha _) i (by rw [decodeFrom_ascii_length s ha]; exact hi)]
  rfl

theorem runeCount_prefixed {p s : GoString} {c : Int}
    (hp : decodeString p = [⟨0, c, p.length⟩]) (h2 : 2 ≤ p.length)
    (ha : asciiOnly s = true) : RuneCountInString (p ++ s) = len s + 1 := by
  unfold RuneCountInString
  rw [decodeString_prefixed hp h2]
  simp [decodeFrom_ascii_length s ha, len]

theorem findMatchesRegexp2_matched (re : Regexp2) (s : GoString)
    (hv : ∀ m ∈ re s, 0 ≤ m.1 ∧ m.1 ≤ m.2 ∧ m.2 ≤ RuneCountInString s) :
    matchedRanges (findMatchesRegexp2 re s) = byteRanges s (re s) := by
  by_cases hnil : re s = []
  · simp [findMatchesRegexp2, hnil, matchedRanges, byteRanges]
  · rw [findMatchesRegexp2_eq re s hnil, toByte_map_eq s _ hv, coveringSpans_matched]

/-! ## Classification by the predicate matcher -/

theorem matchedRanges_append (xs ys : List OffsetsMatch) :
    matchedRanges (xs ++ ys) = matchedRanges xs ++ matchedRanges ys := by
  simp [matchedRanges]

theorem FnPattern.fold_matched (fp : FnPattern) :
    ∀ (ds : List Decoded) (st : ScanState),
      matchedRanges ((ds.map (fun d => (d.pos, d.char))).foldl fp.step st).subs
        = matchedRanges st.subs
          ++ (ds.filter (fun d => fp.fn d.char)).map (fun d => (d.pos, d.pos + RuneLen d.char)) := by
  intro ds
  induction ds with
  | nil => intro st; simp
  | cons d ds ih =>
    intro st
    simp only [List.map_cons, List.foldl_cons]
    rw [ih]
    unfold FnPattern.step
    dsimp only
    by_cases hf : fp.fn d.char = true
    · rw [if_pos hf, List.filter_cons_of_pos (by simpa using hf)]
      by_cases hp : st.hasPrevious = true
      · rw [if_pos hp]
        simp [matchedRanges]
      · rw [if_neg hp]
        simp [matchedRanges]
    · rw [if_neg hf, List.filter_cons_of_neg (by simpa using hf)]

theorem FnPattern.matched_eq (fp : FnPattern) {s : GoString} (hne : s ≠ [])
    (hv : ValidString s = true) :
    matchedRanges (fp.FindMatches s)
      = ((decodeString s).filter (fun d => fp.fn d.char)).map
          (fun d => (d.pos, d.pos + (d.width : Int))) := by
  have hlen := len_ne_zero hne
  have key := FnPattern.fold_matched fp (decodeString s) ⟨[], 0, false⟩
  have hm : ((decodeString s).filter (fun d => fp.fn d.char)).map
      (fun d => (d.pos, d.pos + RuneLen d.char))
      = ((decodeString s).filter (fun d => fp.fn d.char)).map
          (fun d => (d.pos, d.pos + (d.width : Int))) := by
    apply List.map_congr_left
    intro d hd
    rw [valid_runeLen hv d (List.mem_of_mem_filter hd)]
  rw [hm] at key
  unfold FnPattern.FindMatches
  rw [if_neg hlen]
  unfold rangeString
  dsimp only
  split_ifs
  · rw [matchedRanges_append, key]
    simp [matchedRanges]
  · rw [key]
    simp [matchedRanges]

theorem Tiles.mem_ge : ∀ {xs : List OffsetsMatch} {a b : Int}, Tiles a b xs →
    ∀ y ∈ xs, a ≤ y.start := by
  intro xs
  induction xs with
  | nil => intro a b _ y hy; simp at hy
  | cons x xs ih =>
    intro a b h y hy
    rcases List.mem_cons.1 hy with rfl | hy
    · exact le_of_eq h.1.symm
    · have := ih h.2.2 y hy
      have h1 := h.1
      have h2 := h.2.1
      omega

/-- Two spans of a tiling that contain the same position are the same span. -/
theorem Tiles.unique : ∀ {xs : List OffsetsMatch} {a b : Int}, Tiles a b xs →
    ∀ x ∈ xs, ∀ y ∈ xs, ∀ p : Int, x.start ≤ p → p < x.stop → y.start ≤ p → p < y.stop →
      x = y := by
  intro xs
  induction xs with
  | nil => intro a b _ x hx; simp at hx
  | cons z zs ih =>
    intro a b h x hx y hy p h1 h2 h3 h4
    have hz := h.2.1
    rcases List.mem_cons.1 hx with ex | hx' <;> rcases List.mem_cons.1 hy with ey | hy'
    · rw [ex, ey]
    · have := h.2.2.mem_ge y hy'
      rw [ex] at h2
      omega
    · have := h.2.2.mem_ge x hx'
      rw [ey] at h4
      omega
    · exact ih h.2.2 x hx' y hy' p h1 h2 h3 h4

theorem mem_matchedRanges {xs : List OffsetsMatch} {r : Int × Int} :
    r ∈ matchedRanges xs ↔ (⟨r, true⟩ : OffsetsMatch) ∈ xs := by
  simp only [matchedRanges, List.mem_map, List.mem_filter]
  constructor
  · rintro ⟨x, ⟨hx, hm⟩, rfl⟩
    cases x with
    | mk o m =>
      simp only at hm
      subst hm
      exact hx
  · intro h
    exact ⟨⟨r, true⟩, ⟨h, rfl⟩, rfl⟩

/-! ## Occurrences found by the literal search -/

/-- C1: for every rune `r`, every predicate `fn` and every non-empty valid UTF-8
input `s`, `RunePattern{r}.FindMatches(s)` and `FnPattern{fn}.FindMatches(s)`
are valid covering sequences of `[0, len(s))`; and when the last character of
`s` matches, the last span returned is that character's matched span, ending at
`len(s)`, with no unmatched span after it. -/
theorem rune_fn_findMatches_covering (r : Int) (fn : Int → Bool) (s : GoString)
    (hne : s ≠ []) (hv : ValidString s = true) :
    ValidCovering (len s) ((RunePattern.mk r).FindMatches s) ∧
    ValidCovering (len s) ((FnPattern.mk fn).FindMatches s) ∧
    (∀ d, (decodeString s).getLast? = some d → d.char = r →
      ((RunePattern.mk r).FindMatches s).getLast? = some ⟨(d.pos, len s), true⟩) ∧
    (∀ d, (decodeString s).getLast? = some d → fn d.char = true →
      ((FnPattern.mk fn).FindMatches s).getLast? = some ⟨(d.pos, len s), true⟩) := by
  refine ⟨?_, ?_, ?_, ?_⟩
  · rw [RunePattern.FindMatches_eq]
    have h := FnPattern.scan_result ⟨fun c => decide (c = r)⟩ hne hv
    exact h.1.valid h.2.1
  · have h := FnPattern.scan_result ⟨fn⟩ hne hv
    exact h.1.valid h.2.1
  · intro d hd hr
    rw [RunePattern.FindMatches_eq]
    exact FnPattern.scan_last ⟨fun c => decide (c = r)⟩ hne hv hd (by simpa using hr)
  · intro d hd hf
    exact FnPattern.scan_last ⟨fn⟩ hne hv hd hf

/-- C1, witness: the input `"aé"` (bytes 61 C3 A9) with the rune `é` and the
predicate "is `é`"; the last character matches. -/
theorem rune_fn_findMatches_covering_witness :
    ([0x61, 0xC3, 0xA9] : GoString) ≠ [] ∧ ValidString [0x61, 0xC3, 0xA9] = true ∧
    ValidCovering (len [0x61, 0xC3, 0xA9])
      ((RunePattern.mk 0xE9).FindMatches [0x61, 0xC3, 0xA9]) ∧
    (RunePattern.mk 0xE9).FindMatches [0x61, 0xC3, 0xA9] = [⟨(0, 1), false⟩, ⟨(1, 3), true⟩] :=
  ⟨by decide, by decide,
    (rune_fn_findMatches_covering 0xE9 (fun c => c == 0xE9) [0x61, 0xC3, 0xA9]
      (by decide) (by decide)).1, by decide⟩

/-- C2: for every input of byte length `N` and every list of byte ranges with
`0 ≤ s_i ≤ e_i ≤ N` and `e_i ≤ s_(i+1)`, `buildMatchesFromIndices` returns a
valid covering sequence of `[0, N)` whose matched spans are exactly the given
ranges in the given order and whose unmatched spans are exactly the non-empty
gaps before, between and after them; for the empty list it returns the single
span `{0, N, false}`. -/
theorem buildMatchesFromIndices_covering (inside : GoString) (ms : List (Int × Int))
    (hv : ∀ m ∈ ms, 0 ≤ m.1 ∧ m.1 ≤ m.2 ∧ m.2 ≤ len inside) (hs : Ascending ms) :
    ValidCovering (len inside) (buildMatchesFromIndices ms inside) ∧
    matchedRanges (buildMatchesFromIndices ms inside) = ms ∧
    ((ms ≠ [] ∨ 0 < len inside) →
      unmatchedRanges (buildMatchesFromIndices ms inside) = nonEmptyGaps (len inside) ms) ∧
    (ms = [] → buildMatchesFromIndices ms inside = [⟨(0, len inside), false⟩]) := by
  have hN : (0 : Int) ≤ len inside := by simp [len]
  cases ms with
  | nil =>
    refine ⟨(Tiles.single false hN).valid (by simp), rfl, ?_, fun _ => rfl⟩
    intro h
    rcases h with h | h
    · exact absurd rfl h
    · simp [buildMatchesFromIndices, unmatchedRanges, nonEmptyGaps, gapsOf, h]
  | cons m rest =>
    have hm := hv m (List.mem_cons_self _ _)
    rw [buildMatchesFromIndices_eq inside m rest hm.1 hs]
    have hr : RangesFrom 0 (m :: rest) :=
      rangesFrom_of_ascending _ 0 hs (fun n hn => (hv n hn).2.1)
        (fun n hn => by cases hn; exact hm.1)
    have hl : lastEnd 0 (m :: rest) ≤ len inside :=
      lastEnd_le _ 0 hN (fun n hn => (hv n hn).2.2)
    refine ⟨(coveringSpans_tiles hr hl).valid ?_, coveringSpans_matched _ _ _,
      fun _ => coveringSpans_unmatched _ _ _, fun h => by cases h⟩
    intro hnil
    have := coveringSpans_matched (m :: rest) 0 (len inside)
    rw [hnil] at this
    cases this

/-- C2, witness: the ranges `[1,2)` and `[3,4)` in an input of four bytes. -/
theorem buildMatchesFromIndices_covering_witness :
    ValidCovering 4 (buildMatchesFromIndices [(1, 2), (3, 4)] [0x61, 0x62, 0x61, 0x62]) ∧
    buildMatchesFromIndices [(1, 2), (3, 4)] [0x61, 0x62, 0x61, 0x62]
      = [⟨(0, 1), false⟩, ⟨(1, 2), true⟩, ⟨(2, 3), false⟩, ⟨(3, 4), true⟩] :=
  ⟨(buildMatchesFromIndices_covering [0x61, 0x62, 0x61, 0x62] [(1, 2), (3, 4)]
      (by decide) (by simp [Ascending])).1, by decide⟩

/-- C3: for every non-empty input `s` and every list of character-index ranges
reported by the engine with `0 ≤ a_i ≤ b_i ≤ runeCount(s)` and `b_i ≤ a_(i+1)`,
`findMatchesRegexp2` returns a valid covering sequence of `[0, len(s))` in byte
units whose matched spans are, in order, one per engine match, with bounds the
byte offsets of characters `a_i` and `b_i`. -/
theorem findMatchesRegexp2_covering (re : Regexp2) (s : GoString) (_hne : s ≠ [])
    (hv : ∀ m ∈ re s, 0 ≤ m.1 ∧ m.1 ≤ m.2 ∧ m.2 ≤ RuneCountInString s)
    (hs : Ascending (re s)) :
    ValidCovering (len s) (findMatchesRegexp2 re s) ∧
    matchedRanges (findMatchesRegexp2 re s) = byteRanges s (re s) := by
  by_cases hnil : re s = []
  · have : findMatchesRegexp2 re s = [⟨(0, len s), false⟩] := by
      simp [findMatchesRegexp2, hnil]
    rw [this, hnil]
    exact ⟨(Tiles.single false (len_nonneg s)).valid (by simp), rfl⟩
  · rw [findMatchesRegexp2_eq re s hnil, toByte_map_eq s _ hv]
    have hr0 : RangesFrom ((0 : Nat) : Int) (re s) :=
      rangesFrom_of_ascending _ _ hs (fun m hm => (hv m hm).2.1)
        (fun m hm => (hv m (List.mem_of_mem_head? hm)).1)
    have hr := byteRanges_rangesFrom s (re s) 0 (Nat.zero_le _) hv hr0
    rw [charOffset_zero] at hr
    have hl := lastEnd_le (byteRanges s (re s)) 0 (len_nonneg s) (byteRanges_le_len s _ hv)
    refine ⟨(coveringSpans_tiles hr hl).valid ?_, coveringSpans_matched _ _ _⟩
    intro h
    have hm := coveringSpans_matched (byteRanges s (re s)) 0 (len s)
    rw [h] at hm
    have : byteRanges s (re s) = [] := by simpa [matchedRanges] using hm.symm
    simp only [byteRanges, List.map_eq_nil_iff] at this
    exact hnil this

/-- C3, witness: the input `"aéb"` (bytes 61 C3 A9 62) and the character ranges
`(1,2)` and `(3,3)`. -/
theorem findMatchesRegexp2_covering_witness :
    ValidCovering 4 (findMatchesRegexp2 (fun _ => [(1, 2), (3, 3)]) [0x61, 0xC3, 0xA9, 0x62]) ∧
    findMatchesRegexp2 (fun _ => [(1, 2), (3, 3)]) [0x61, 0xC3, 0xA9, 0x62]
      = [⟨(0, 1), false⟩, ⟨(1, 3), true⟩, ⟨(3, 4), false⟩, ⟨(4, 4), true⟩] :=
  ⟨(findMatchesRegexp2_covering (fun _ => [(1, 2), (3, 3)]) [0x61, 0xC3, 0xA9, 0x62]
      (by decide) (by decide) (by simp [Ascending])).1, by decide⟩

/-- C4, counterexample: an `Invert` around a `RunePattern`, given the empty
string, returns `[{0, 0, true}]` and not `[{0, 0, false}]`. -/
theorem invert_empty_input_counterexample :
    Pattern.FindMatches (.invert (.rune ⟨0x61⟩)) [] = [⟨(0, 0), true⟩] ∧
    Pattern.FindMatches (.invert (.rune ⟨0x61⟩)) [] ≠ [⟨(0, 0), false⟩] := by
  decide

/-- C4, amended: given the empty string, every matcher returns exactly one span
with offsets `(0, 0)`; the flag is `false` for `RunePattern`, `StringPattern`
(empty or non-empty literal), `RegexpPattern` and `FnPattern`, and each `Invert`
wrapper negates it, so it is `true` exactly under an odd number of wrappers. -/
theorem findMatches_empty_input (p : Pattern) (hb : p.Built) :
    p.FindMatches [] = [⟨(0, 0), decide (p.depth % 2 = 1)⟩] := by
  induction p with
  | rune q => rfl
  | string q =>
    simp only [Pattern.Built] at hb
    rw [Pattern.FindMatches, hb, NewStringPattern_empty_input]
    rfl
  | regexp q => rfl
  | fn q => rfl
  | invert q ih =>
    rw [Pattern.FindMatches, ih hb, invert_single]
    have : decide ((Pattern.invert q).depth % 2 = 1) = ! decide (q.depth % 2 = 1) := by
      simp only [Pattern.depth]
      rcases Nat.mod_two_eq_zero_or_one q.depth with h | h
      · have : (q.depth + 1) % 2 = 1 := by omega
        simp [h, this]
      · have : (q.depth + 1) % 2 = 0 := by omega
        simp [h, this]
    rw [this]

/-- C4, witness: a literal matcher built by `NewStringPattern` under two
`Invert` wrappers. -/
theorem findMatches_empty_input_witness :
    Pattern.FindMatches (.invert (.invert (.string (NewStringPattern [0x62])))) []
      = [⟨(0, 0), false⟩] :=
  findMatches_empty_input (.invert (.invert (.string (NewStringPattern [0x62])))) rfl

/-- C5: for every inner matcher `p` and every input `s`, `Invert{p}.FindMatches(s)`
has the same length as `p.FindMatches(s)`, at every index the span has the
offsets of the inner span and the negated flag, and it is a valid covering
sequence whenever the inner result is. -/
theorem invert_findMatches_frame (p : Pattern) (s : GoString) :
    (Pattern.FindMatches (.invert p) s).length = (p.FindMatches s).length ∧
    (∀ i : Nat, (Pattern.FindMatches (.invert p) s)[i]?
      = ((p.FindMatches s)[i]?).map (fun m => ⟨m.Offsets, ! m.Match⟩)) ∧
    (∀ N : Int, ValidCovering N (p.FindMatches s) →
      ValidCovering N (Pattern.FindMatches (.invert p) s)) := by
  refine ⟨by simp [Pattern.FindMatches, invert], ?_, ?_⟩
  · intro i
    simp [Pattern.FindMatches, invert]
  · intro N h
    obtain ⟨h1, h2, h3, h4⟩ := h
    simp only [Pattern.FindMatches, invert]
    refine ⟨?_, ?_, ?_, ?_⟩
    · rw [List.head?_map, Option.map_map]
      exact h1
    · intro x hx
      obtain ⟨y, hy, rfl⟩ := List.mem_map.1 hx
      exact h2 y hy
    · rw [List.chain'_map]
      exact h3
    · rw [List.getLast?_map, Option.map_map]
      exact h4

/-- C6: `invert(invert(xs)) = xs` for every span list, and
`Invert{Invert{p}}.FindMatches(s)` equals `p.FindMatches(s)` span for span. -/
theorem invert_invert (xs : List OffsetsMatch) (p : Pattern) (s : GoString) :
    invert (invert xs) = xs ∧
    Pattern.FindMatches (.invert (.invert p)) s = p.FindMatches s := by
  have key : ∀ ys : List OffsetsMatch, invert (invert ys) = ys := by
    intro ys
    simp only [invert, List.map_map]
    conv_rhs => rw [← List.map_id ys]
    apply List.map_congr_left
    intro m _
    cases m
    simp
  exact ⟨key xs, by simp only [Pattern.FindMatches]; exact key _⟩

/-- C7, the code at a failing input: on the one-byte string `"\xff"`, which is
not valid UTF-8, the scan yields U+FFFD at byte 0 and `utf8.RuneLen` gives 3, so
`RunePattern{U+FFFD}` and a predicate accepting U+FFFD return `[{0, 3, true}]`,
whose end exceeds `len = 1`: the result is not a covering sequence. -/
theorem findMatches_invalid_utf8 :
    len [0xFF] = 1 ∧ ValidString [0xFF] = false ∧
    (RunePattern.mk RuneError).FindMatches [0xFF] = [⟨(0, 3), true⟩] ∧
    (FnPattern.mk (fun c => decide (c = RuneError))).FindMatches [0xFF] = [⟨(0, 3), true⟩] ∧
    ¬ ValidCovering (len [0xFF]) ((RunePattern.mk RuneError).FindMatches [0xFF]) ∧
    ¬ ValidCovering (len [0xFF])
        ((FnPattern.mk (fun c => decide (c = RuneError))).FindMatches [0xFF]) := by
  have h1 : (RunePattern.mk RuneError).FindMatches [0xFF] = [⟨(0, 3), true⟩] := by decide
  have h2 : (FnPattern.mk (fun c => decide (c = RuneError))).FindMatches [0xFF]
      = [⟨(0, 3), true⟩] := by decide
  refine ⟨by decide, by decide, h1, h2, ?_, ?_⟩
  · rw [h1]
    intro h
    have := h.2.2.2
    revert this
    decide
  · rw [h2]
    intro h
    have := h.2.2.2
    revert this
    decide

/-- C8, counterexample: for the engine ranges `(0,0)` and `(1,1)` on the
one-character input `"a"`, `findMatchesRegexp2` returns
`[{0,0,true}, {0,1,false}, {1,1,true}]`: the first two spans have the same
start, so the starts are not strictly increasing. -/
theorem starts_not_increasing_counterexample :
    findMatchesRegexp2 (fun _ => [(0, 0), (1, 1)]) [0x61]
      = [⟨(0, 0), true⟩, ⟨(0, 1), false⟩, ⟨(1, 1), true⟩] ∧
    ¬ StartsIncreasing (findMatchesRegexp2 (fun _ => [(0, 0), (1, 1)]) [0x61]) := by
  have h : findMatchesRegexp2 (fun _ => [(0, 0), (1, 1)]) [0x61]
      = [⟨(0, 0), true⟩, ⟨(0, 1), false⟩, ⟨(1, 1), true⟩] := by decide
  refine ⟨h, ?_⟩
  rw [h]
  simp [StartsIncreasing, OffsetsMatch.start]

/-- C8, amended: for every matcher used on an input it is meant for (the rune
and predicate matchers on valid UTF-8, a literal matcher built by
`NewStringPattern`, the extended-regex matcher with an ascending,
non-overlapping list of engine ranges with `start ≤ end` inside the input, and
`Invert` around any of them) the start offsets of the returned spans never
decrease from one span to the next, and they strictly increase when the engine
reports no zero-length match. The same holds of `findMatchesRegexp2` and of
`buildMatchesFromIndices` for every such list of ranges: never decreasing, and
strictly increasing when every range is non-empty. -/
theorem starts_ordered :
    (∀ (p : Pattern) (s : GoString), p.Regular s →
      StartsNonDecreasing (p.FindMatches s) ∧
      (p.NonEmptyMatches s → StartsIncreasing (p.FindMatches s))) ∧
    (∀ (re : Regexp2) (s : GoString),
      (∀ m ∈ re s, 0 ≤ m.1 ∧ m.1 ≤ m.2 ∧ m.2 ≤ RuneCountInString s) → Ascending (re s) →
      StartsNonDecreasing (findMatchesRegexp2 re s) ∧
      ((∀ m ∈ re s, m.1 < m.2) → StartsIncreasing (findMatchesRegexp2 re s))) ∧
    (∀ (ms : List (Int × Int)) (inside : GoString),
      (∀ m ∈ ms, 0 ≤ m.1 ∧ m.1 ≤ m.2 ∧ m.2 ≤ len inside) → Ascending ms →
      StartsNonDecreasing (buildMatchesFromIndices ms inside) ∧
      ((∀ m ∈ ms, m.1 < m.2) → StartsIncreasing (buildMatchesFromIndices ms inside))) :=
  ⟨fun p s hr => pattern_order p s hr,
    fun re s hv hs => findMatchesRegexp2_order re s hv hs,
    fun ms inside hv hs => buildMatchesFromIndices_order inside ms hv hs⟩

/-- C8, witness: the ranges `(0,0)`, `(1,1)` on `"a"` give non-decreasing
starts; the range `(1,2)` on `"aéb"` gives strictly increasing starts; so does
the literal `"b"` on `"abab"` under an `Invert`. -/
theorem starts_ordered_witness :
    StartsNonDecreasing (findMatchesRegexp2 (fun _ => [(0, 0), (1, 1)]) [0x61]) ∧
    StartsIncreasing (findMatchesRegexp2 (fun _ => [(1, 2)]) [0x61, 0xC3, 0xA9, 0x62]) ∧
    StartsIncreasing (Pattern.FindMatches (.invert (.string (NewStringPattern [0x62])))
      [0x61, 0x62, 0x61, 0x62]) :=
  ⟨(starts_ordered.2.1 (fun _ => [(0, 0), (1, 1)]) [0x61] (by decide)
      (by simp [Ascending])).1,
   (starts_ordered.2.1 (fun _ => [(1, 2)]) [0x61, 0xC3, 0xA9, 0x62] (by decide)
      (by simp [Ascending])).2 (by decide),
   (starts_ordered.1 (.invert (.string (NewStringPattern [0x62]))) [0x61, 0x62, 0x61, 0x62]
      rfl).2 trivial⟩

/-- C9: a `StringPattern` whose literal is empty returns, for every input `s`
and whatever its compiled expression is, exactly `[{0, len(s), false}]`; so
does the one built by `NewStringPattern("")`. -/
theorem stringPattern_empty_literal (re : Regexp) (s : GoString) :
    (StringPattern.mk [] re).FindMatches s = [⟨(0, len s), false⟩] ∧
    (NewStringPattern []).FindMatches s = [⟨(0, len s), false⟩] := by
  simp [StringPattern.FindMatches, NewStringPattern]

/-- C10: for every rune `r`, predicate `fn` and non-empty valid UTF-8 input, the
sequences returned by `RunePattern.FindMatches` and `FnPattern.FindMatches`
contain no zero-length span and no two consecutive unmatched spans, and two
neighbouring matching characters yield two neighbouring matched spans with
nothing between them; `RunePattern{'a'}` on `"aa"` returns
`[{0,1,true},{1,2,true}]`. -/
theorem rune_fn_spans_nonempty (r : Int) (fn : Int → Bool) (s : GoString)
    (hne : s ≠ []) (hv : ValidString s = true) :
    (∀ x ∈ (RunePattern.mk r).FindMatches s, x.start < x.stop) ∧
    NoTwoUnmatched ((RunePattern.mk r).FindMatches s) ∧
    (∀ x ∈ (FnPattern.mk fn).FindMatches s, x.start < x.stop) ∧
    NoTwoUnmatched ((FnPattern.mk fn).FindMatches s) ∧
    (∀ (pre post : List Decoded) (d e : Decoded), decodeString s = pre ++ d :: e :: post →
      d.char = r → e.char = r →
      [(⟨(d.pos, e.pos), true⟩ : OffsetsMatch), ⟨(e.pos, e.pos + e.width), true⟩]
        <:+: (RunePattern.mk r).FindMatches s) ∧
    (∀ (pre post : List Decoded) (d e : Decoded), decodeString s = pre ++ d :: e :: post →
      fn d.char = true → fn e.char = true →
      [(⟨(d.pos, e.pos), true⟩ : OffsetsMatch), ⟨(e.pos, e.pos + e.width), true⟩]
        <:+: (FnPattern.mk fn).FindMatches s) ∧
    (RunePattern.mk 0x61).FindMatches [0x61, 0x61] = [⟨(0, 1), true⟩, ⟨(1, 2), true⟩] := by
  have hr := FnPattern.scan_result ⟨fun c => decide (c = r)⟩ hne hv
  have hf := FnPattern.scan_result ⟨fn⟩ hne hv
  rw [RunePattern.FindMatches_eq]
  refine ⟨hr.2.2.1, hr.2.2.2, hf.2.2.1, hf.2.2.2, ?_, ?_, by decide⟩
  · intro pre post d e hd h1 h2
    exact FnPattern.scan_adjacent ⟨fun c => decide (c = r)⟩ hv hd (by simpa using h1)
      (by simpa using h2)
  · intro pre post d e hd h1 h2
    exact FnPattern.scan_adjacent ⟨fn⟩ hv hd h1 h2

/-- C10, witness: the input `"aéé"` (bytes 61 C3 A9 C3 A9) with the rune `é`. -/
theorem rune_fn_spans_nonempty_witness :
    ([0x61, 0xC3, 0xA9, 0xC3, 0xA9] : GoString) ≠ [] ∧
    ValidString [0x61, 0xC3, 0xA9, 0xC3, 0xA9] = true ∧
    NoTwoUnmatched ((RunePattern.mk 0xE9).FindMatches [0x61, 0xC3, 0xA9, 0xC3, 0xA9]) ∧
    (RunePattern.mk 0xE9).FindMatches [0x61, 0xC3, 0xA9, 0xC3, 0xA9]
      = [⟨(0, 1), false⟩, ⟨(1, 3), true⟩, ⟨(3, 5), true⟩] :=
  ⟨by decide, by decide,
    (rune_fn_spans_nonempty 0xE9 (fun c => c == 0xE9) [0x61, 0xC3, 0xA9, 0xC3, 0xA9]
      (by decide) (by decide)).2.1, by decide⟩

/-- C11: for every predicate `fn` and non-empty valid UTF-8 input `s`, the
matched spans of `FnPattern{fn}.FindMatches(s)` are, in order, exactly the
spans of the characters `c` of `s` with `fn(c)` true, each from the byte offset
of the character to the byte offset of the next one; every such character is
covered by its own matched span; and every character that starts inside an
unmatched span has `fn(c)` false. The whitespace predicate on `"ab cd"` returns
`[{0,2,false},{2,3,true},{3,5,false}]`. -/
theorem fnPattern_classifies (fn : Int → Bool) (s : GoString) (hne : s ≠ [])
    (hv : ValidString s = true) :
    Consec 0 (len s) (decodeString s) ∧
    matchedRanges ((FnPattern.mk fn).FindMatches s)
      = ((decodeString s).filter (fun d => fn d.char)).map
          (fun d => (d.pos, d.pos + (d.width : Int))) ∧
    (∀ x ∈ (FnPattern.mk fn).FindMatches s, x.Match = true →
      ∃ d ∈ decodeString s, fn d.char = true ∧ x.Offsets = (d.pos, d.pos + (d.width : Int))) ∧
    (∀ d ∈ decodeString s, fn d.char = true →
      (⟨(d.pos, d.pos + (d.width : Int)), true⟩ : OffsetsMatch)
        ∈ (FnPattern.mk fn).FindMatches s) ∧
    (∀ x ∈ (FnPattern.mk fn).FindMatches s, x.Match = false →
      ∀ d ∈ decodeString s, x.start ≤ d.pos → d.pos < x.stop → fn d.char = false) ∧
    (FnPattern.mk (fun c => decide (c = 0x20 ∨ (0x09 ≤ c ∧ c ≤ 0x0D)))).FindMatches
        [0x61, 0x62, 0x20, 0x63, 0x64]
      = [⟨(0, 2), false⟩, ⟨(2, 3), true⟩, ⟨(3, 5), false⟩] := by
  have hm := FnPattern.matched_eq ⟨fn⟩ hne hv
  have hc := decodeString_consec s
  have ht := (FnPattern.scan_result ⟨fn⟩ hne hv).1
  have hin : ∀ d ∈ decodeString s, fn d.char = true →
      (⟨(d.pos, d.pos + (d.width : Int)), true⟩ : OffsetsMatch)
        ∈ (FnPattern.mk fn).FindMatches s := by
    intro d hd hf
    rw [← mem_matchedRanges, hm]
    exact List.mem_map.2 ⟨d, List.mem_filter.2 ⟨hd, hf⟩, rfl⟩
  refine ⟨hc, hm, ?_, hin, ?_, by decide⟩
  · intro x hx hxm
    have : x.Offsets ∈ matchedRanges ((FnPattern.mk fn).FindMatches s) := by
      rw [mem_matchedRanges]
      cases x with
      | mk o m =>
        simp only at hxm
        subst hxm
        exact hx
    rw [hm] at this
    obtain ⟨d, hd, hdx⟩ := List.mem_map.1 this
    obtain ⟨hd1, hd2⟩ := List.mem_filter.1 hd
    exact ⟨d, hd1, hd2, hdx.symm⟩
  · intro x hx hxm d hd h1 h2
    by_contra hf
    have hf : fn d.char = true := by simpa using hf
    have hy := hin d hd hf
    have hw := hc.width_pos d hd
    have := ht.unique x hx _ hy d.pos h1 h2 (le_refl _)
      (by simp only [OffsetsMatch.stop]; omega)
    rw [this] at hxm
    cases hxm

/-- C11, witness: the predicate "is `é`" on `"aéb"` (bytes 61 C3 A9 62). -/
theorem fnPattern_classifies_witness :
    ([0x61, 0xC3, 0xA9, 0x62] : GoString) ≠ [] ∧
    ValidString [0x61, 0xC3, 0xA9, 0x62] = true ∧
    matchedRanges ((FnPattern.mk (fun c => c == 0xE9)).FindMatches [0x61, 0xC3, 0xA9, 0x62])
      = ((decodeString [0x61, 0xC3, 0xA9, 0x62]).filter (fun d => d.char == 0xE9)).map
          (fun d => (d.pos, d.pos + (d.width : Int))) ∧
    (FnPattern.mk (fun c => c == 0xE9)).FindMatches [0x61, 0xC3, 0xA9, 0x62]
      = [⟨(0, 1), false⟩, ⟨(1, 3), true⟩, ⟨(3, 4), false⟩] :=
  ⟨by decide, by decide,
    (fnPattern_classifies (fun c => c == 0xE9) [0x61, 0xC3, 0xA9, 0x62]
      (by decide) (by decide)).2.1, by decide⟩

/-- C13: for every ASCII-only string `s`, every single multi-byte character `p`
of `k` bytes and every ascending, non-overlapping list `ms` of character-index
ranges within `[0, len(s)]`, the matched spans that `findMatchesRegexp2`
produces for `p + s` with every range of `ms` shifted by one character are the
matched spans it produces for `s` with `ms`, each shifted by `k` bytes, in the
same order; the first input takes the offset-table path, the second the ASCII
path. -/
theorem prefix_shift (s p : GoString) (c : Int) (ms : List (Int × Int))
    (ha : asciiOnly s = true) (hp : decodeString p = [⟨0, c, p.length⟩]) (h2 : 2 ≤ p.length)
    (hv : ∀ m ∈ ms, 0 ≤ m.1 ∧ m.1 ≤ m.2 ∧ m.2 ≤ len s) (_hs : Ascending ms) :
    asciiOnly (p ++ s) = false ∧
    matchedRanges (findMatchesRegexp2 (fun _ => ms.map (fun m => (m.1 + 1, m.2 + 1))) (p ++ s))
      = (matchedRanges (findMatchesRegexp2 (fun _ => ms) s)).map
          (fun r => (r.1 + len p, r.2 + len p)) := by
  refine ⟨asciiOnly_prefixed hp h2, ?_⟩
  have hc := ascii_count ha
  have hcount := runeCount_prefixed (s := s) hp h2 ha
  rw [findMatchesRegexp2_matched, findMatchesRegexp2_matched]
  · unfold byteRanges
    rw [List.map_map, List.map_map]
    apply List.map_congr_left
    intro m hm
    obtain ⟨h0, h1, h3⟩ := hv m hm
    have hlen : (s.length : Int) = len s := rfl
    have e1 : (m.1 + 1).toNat = m.1.toNat + 1 := by omega
    have e2 : (m.2 + 1).toNat = m.2.toNat + 1 := by omega
    simp only [Function.comp_apply, e1, e2]
    rw [charOffset_prefixed hp h2 ha (by omega), charOffset_prefixed hp h2 ha (by omega),
      ascii_charOffset ha (by omega), ascii_charOffset ha (by omega)]
    simp only [Prod.mk.injEq]
    constructor <;> omega
  · intro m hm
    obtain ⟨h0, h1, h3⟩ := hv m hm
    simp only [RuneCountInString]
    omega
  · intro m hm
    simp only [List.mem_map] at hm
    obtain ⟨n, hn, rfl⟩ := hm
    obtain ⟨h0, h1, h3⟩ := hv n hn
    rw [hcount]
    dsimp only
    omega

/-- C13, witness: `s = "ab"`, `p = "é"` (bytes C3 A9, `k = 2`) and the ranges
`(0,1)`, `(1,1)`. -/
theorem prefix_shift_witness :
    matchedRanges (findMatchesRegexp2 (fun _ => [(1, 2), (2, 2)]) [0xC3, 0xA9, 0x61, 0x62])
      = [(2, 3), (3, 3)] ∧
    matchedRanges (findMatchesRegexp2 (fun _ => [(0, 1), (1, 1)]) [0x61, 0x62])
      = [(0, 1), (1, 1)] ∧
    matchedRanges (findMatchesRegexp2
        (fun _ => [(0, 1), (1, 1)].map (fun m => (m.1 + 1, m.2 + 1)))
        ([0xC3, 0xA9] ++ [0x61, 0x62]))
      = (matchedRanges (findMatchesRegexp2 (fun _ => [(0, 1), (1, 1)]) [0x61, 0x62])).map
          (fun r => (r.1 + len [0xC3, 0xA9], r.2 + len [0xC3, 0xA9])) :=
  ⟨by decide, by decide,
    (prefix_shift [0x61, 0x62] [0xC3, 0xA9] 0xE9 [(0, 1), (1, 1)] (by decide) (by decide)
      (by decide) (by decide) (by simp [Ascending])).2⟩

/-- C14: for every list of token configs, `CreateAddedTokensWithIds` returns a
list of the same length and in the same order in which entry `i` carries
`Id = int(data[i].Id)`, `Special = data[i].Special` and a token whose `Content`,
`LStrip`, `RStrip`, `Normalized` and `SingleWord` are those of `data[i]`. -/
theorem createAddedTokensWithIds_preserves {I E : Type} (dflt : AddedToken E)
    (toInt : I → Int) (data : List (TokenConfig I)) :
    (CreateAddedTokensWithIds dflt toInt data).length = data.length ∧
    (∀ i : Nat, (CreateAddedTokensWithIds dflt toInt data)[i]?
      = (data[i]?).map (fun d => ⟨toInt d.Id, d.Special, buildToken dflt d⟩)) ∧
    (∀ d : TokenConfig I,
      (buildToken dflt d).Content = d.Content ∧ (buildToken dflt d).LStrip = d.Lstrip ∧
      (buildToken dflt d).RStrip = d.Rstrip ∧ (buildToken dflt d).Normalized = d.Normalized ∧
      (buildToken dflt d).SingleWord = d.SingleWord) := by
  have h : CreateAddedTokensWithIds dflt toInt data
      = data.map (fun d => ⟨toInt d.Id, d.Special, buildToken dflt d⟩) := by
    unfold CreateAddedTokensWithIds
    dsimp only
    rw [withIds_fold]
    simp
  refine ⟨by rw [h]; simp, ?_, fun d => ⟨rfl, rfl, rfl, rfl, rfl⟩⟩
  intro i
  rw [h, List.getElem?_map]

/-- C15: for every input `s` with `C` characters and every integer index `i`,
the table lookup of `toByte` never leaves the offset table; `toByte(i) = 0` for
`i < 0`, `toByte(i) = len(s)` for `i ≥ C`, and for `0 ≤ i < C` it is the byte
offset at which character `i` starts. On the ASCII path it returns `i` itself;
on the table path the table has exactly `C + 1` strictly increasing entries,
the first `0` and the last `len(s)`. Hence `toByte` is monotone and stays
within `[0, len(s)]`. -/
theorem toByte_total_exact (s : GoString) (i : Int) :
    toByteChecked s i = some (toByte s i) ∧
    (i < 0 → toByte s i = 0) ∧
    (RuneCountInString s ≤ i → toByte s i = len s) ∧
    (∀ d : Decoded, 0 ≤ i → (decodeString s)[i.toNat]? = some d → toByte s i = d.pos) ∧
    (asciiOnly s = true → 0 ≤ i → i < RuneCountInString s → toByte s i = i) ∧
    (asciiOnly s = false →
      ((runeToByteTable s).length : Int) = RuneCountInString s + 1 ∧
      (runeToByteTable s).head? = some 0 ∧
      (runeToByteTable s).getLast? = some (len s) ∧
      (runeToByteTable s).Chain' (fun x y => x < y)) ∧
    (∀ j : Int, i ≤ j → toByte s i ≤ toByte s j) ∧
    0 ≤ toByte s i ∧ toByte s i ≤ len s := by
  refine ⟨toByteChecked_eq s i, fun h => toByte_neg s h, fun h => toByte_large s h, ?_, ?_,
    fun h => runeToByteTable_shape h, fun j h => toByte_mono s h, toByte_range s i⟩
  · intro d h0 hd
    have hlt := (List.getElem?_eq_some_iff.1 hd).1
    rw [toByte_eq s h0 (by simp only [RuneCountInString]; omega), charOffset_pos s hd]
  · intro ha h0 hi
    have hin : i.toNat ≤ (decodeString s).length := by
      simp only [RuneCountInString] at hi
      omega
    rw [toByte_eq s h0 (by omega), ascii_charOffset ha hin]
    omega

/-- C16: for every ASCII-only input `s` and every list of ranges with
`0 ≤ a_i ≤ b_i ≤ len(s)` and `b_i ≤ a_(i+1)`, the result of `findMatchesRegexp2`
for those engine matches equals `buildMatchesFromIndices` applied to the same
ranges and `s`, span for span. -/
theorem findMatchesRegexp2_eq_builder (re : Regexp2) (s : GoString)
    (ha : asciiOnly s = true)
    (hv : ∀ m ∈ re s, 0 ≤ m.1 ∧ m.1 ≤ m.2 ∧ m.2 ≤ len s) (hs : Ascending (re s)) :
    findMatchesRegexp2 re s = buildMatchesFromIndices (re s) s := by
  by_cases hnil : re s = []
  · simp [findMatchesRegexp2, buildMatchesFromIndices, hnil]
  · rw [findMatchesRegexp2_eq re s hnil, ascii_toByte_map s ha _ hv]
    cases hms : re s with
    | nil => exact absurd hms hnil
    | cons m rest =>
      rw [hms] at hv hs
      rw [buildMatchesFromIndices_eq s m rest (hv m (List.mem_cons_self _ _)).1 hs]

/-- C16, witness: the ranges `(1,2)` and `(3,3)` on the ASCII input `"abab"`. -/
theorem findMatchesRegexp2_eq_builder_witness :
    findMatchesRegexp2 (fun _ => [(1, 2), (3, 3)]) [0x61, 0x62, 0x61, 0x62]
      = buildMatchesFromIndices [(1, 2), (3, 3)] [0x61, 0x62, 0x61, 0x62] ∧
    findMatchesRegexp2 (fun _ => [(1, 2), (3, 3)]) [0x61, 0x62, 0x61, 0x62]
      = [⟨(0, 1), false⟩, ⟨(1, 2), true⟩, ⟨(2, 3), false⟩, ⟨(3, 3), true⟩, ⟨(3, 4), false⟩] :=
  ⟨findMatchesRegexp2_eq_builder (fun _ => [(1, 2), (3, 3)]) [0x61, 0x62, 0x61, 0x62]
      (by decide) (by decide) (by simp [Ascending]), by decide⟩

/-- C17: for every rune `r` and every input `s`, `RunePattern{r}.FindMatches(s)`
equals `FnPattern{fn}.FindMatches(s)` with `fn(c) = (c == r)`, span for span. -/
theorem runePattern_eq_fnPattern (r : Int) (s : GoString) :
    (RunePattern.mk r).FindMatches s
      = (FnPattern.mk (fun c => decide (c = r))).FindMatches s :=
  RunePattern.FindMatches_eq ⟨r⟩ s

/-- C18: for every pooled buffer (any length, any capacity, any stale contents)
and every requested minimum `minCap`, `getRuneToByteScratch(minCap)` and
`getRegexp2MatchScratch(minCap)` return a buffer of length 0 and capacity at
least `minCap`, through which no element is visible. -/
theorem scratch_checkout (p : Slice Int) (q : Slice (Int × Int)) (minCap : Int) :
    (getRuneToByteScratch p minCap).len = 0 ∧
    minCap ≤ (getRuneToByteScratch p minCap).cap ∧
    (getRuneToByteScratch p minCap).elems = [] ∧
    (getRegexp2MatchScratch q minCap).len = 0 ∧
    minCap ≤ (getRegexp2MatchScratch q minCap).cap ∧
    (getRegexp2MatchScratch q minCap).elems = [] := by
  unfold getRuneToByteScratch getRegexp2MatchScratch
  refine ⟨?_, ?_, ?_, ?_, ?_, ?_⟩
  · split_ifs <;> rfl
  · split_ifs with h
    · have : 0 ≤ p.cap := by simp [Slice.cap]
      simp only [make, Slice.cap, List.length_replicate]
      omega
    · simp only [Slice.reset, Slice.cap] at h ⊢
      omega
  · split_ifs <;> simp [Slice.elems, make, Slice.reset]
  · split_ifs <;> rfl
  · split_ifs with h
    · have : 0 ≤ q.cap := by simp [Slice.cap]
      simp only [make, Slice.cap, List.length_replicate]
      omega
    · simp only [Slice.reset, Slice.cap] at h ⊢
      omega
  · split_ifs <;> simp [Slice.elems, make, Slice.reset]

/-- C19: every buffer that `putRuneToByteScratch` places in the pool has length
0 and capacity at most `2^20` (capacity 256 when the capacity of the argument
exceeds `2^20`), every buffer that `putRegexp2MatchScratch` places in the pool
has length 0 and capacity at most `2^14` (capacity 16 above that), and a buffer
at or below the ceiling keeps its capacity. -/
theorem scratch_retention (b : Slice Int) (c : Slice (Int × Int)) :
    (putRuneToByteScratch b).len = 0 ∧ (putRuneToByteScratch b).cap ≤ 2 ^ 20 ∧
    (b.cap > 2 ^ 20 → (putRuneToByteScratch b).cap = 256) ∧
    (b.cap ≤ 2 ^ 20 → (putRuneToByteScratch b).cap = b.cap) ∧
    (putRegexp2MatchScratch c).len = 0 ∧ (putRegexp2MatchScratch c).cap ≤ 2 ^ 14 ∧
    (c.cap > 2 ^ 14 → (putRegexp2MatchScratch c).cap = 16) ∧
    (c.cap ≤ 2 ^ 14 → (putRegexp2MatchScratch c).cap = c.cap) := by
  unfold putRuneToByteScratch putRegexp2MatchScratch
  dsimp only
  refine ⟨?_, ?_, ?_, ?_, ?_, ?_, ?_, ?_⟩
  · split_ifs <;> rfl
  · split_ifs with h
    · simp only [make, Slice.cap, List.length_replicate]
      norm_num
    · simp only [Slice.reset, Slice.cap] at h ⊢
      omega
  · intro h
    rw [if_pos h]
    simp only [make, Slice.cap, List.length_replicate]
    norm_num
  · intro h
    rw [if_neg (by omega)]
    rfl
  · split_ifs <;> rfl
  · split_ifs with h
    · simp only [make, Slice.cap, List.length_replicate]
      norm_num
    · simp only [Slice.reset, Slice.cap] at h ⊢
      omega
  · intro h
    rw [if_pos h]
    simp only [make, Slice.cap, List.length_replicate]
    norm_num
  · intro h
    rw [if_neg (by omega)]
    rfl

/-- C20: for every input list, `specialToks` is the sequence of tokens built
from exactly the entries with `Special = true` in their original order, `toks`
the sequence built from exactly the entries with `Special = false` in their
original order, `len(specialToks) + len(toks) = len(data)`, and each built
token copies `Content`, `LStrip`, `RStrip`, `Normalized` and `SingleWord` from
its entry. -/
theorem createAddedTokens_partition {I E : Type} (dflt : AddedToken E)
    (data : List (TokenConfig I)) :
    (CreateAddedTokens dflt data).1
      = (data.filter (fun d => d.Special)).map (buildToken dflt) ∧
    (CreateAddedTokens dflt data).2
      = (data.filter (fun d => ! d.Special)).map (buildToken dflt) ∧
    (CreateAddedTokens dflt data).1.length + (CreateAddedTokens dflt data).2.length
      = data.length ∧
    (∀ d : TokenConfig I,
      (buildToken dflt d).Content = d.Content ∧ (buildToken dflt d).LStrip = d.Lstrip ∧
      (buildToken dflt d).RStrip = d.Rstrip ∧ (buildToken dflt d).Normalized = d.Normalized ∧
      (buildToken dflt d).SingleWord = d.SingleWord) := by
  have h : CreateAddedTokens dflt data
      = ((data.filter (fun d => d.Special)).map (buildToken dflt),
         (data.filter (fun d => ! d.Special)).map (buildToken dflt)) := by
    unfold CreateAddedTokens
    dsimp only
    rw [addedTokens_fold]
    simp
  refine ⟨by rw [h], by rw [h], ?_, fun d => ⟨rfl, rfl, rfl, rfl, rfl⟩⟩
  rw [h]
  simp only [List.length_map]
  have := List.length_eq_length_filter_add (l := data) (fun d => d.Special)
  omega

end Tokenizer
